import Mathlib

/-!
# Cube ICQ generator (`extras/cubeICQ.c`)

A shallow embedding of `main` of `extras/cubeICQ.c`, the program that writes the
ICQ vertex list of an origin-centred cube of side `L` at resolution `Q`.

* The three function-wide `float` variables `i`, `j`, `k` together with the output
  stream form an explicit `State`, passed through the twelve `for` loops.
* Every `fprintf` call is logged with its format string and its arguments; the text
  it writes is obtained by `render`, an interpreter of the two conversions
  (`%d`, `%f`) the program uses.
* `float` values are rationals.  Every arithmetic operation of the source is
  followed by a rounding operator `rnd`; exact arithmetic is `rnd = id`.
  Negation and comparison are exact in IEEE arithmetic and are not rounded.
* A `for` loop takes a bound `fuel` on the number of times its condition may be
  evaluated and yields `none` when the bound is reached.
* `loopTable` lists the six faces as rows (fixed variable, outer loop, inner loop);
  `faceOf` reads a face from its row and coincides with the direct translation.
* `runWith` wraps the statements of `main` in the process: `fopen` with mode `"w"`,
  the file `icq.txt` as explicit state, and the way the run ends.
-/

namespace CubeICQ

/-! ## The output stream -/

/-- An argument handed to `fprintf`: an `int` (for `%d`) or a floating value
(for `%f`; a `float` argument is promoted to `double`, which is exact). -/
inductive Arg where
  | int (n : ℤ)
  | flt (x : ℚ)
  deriving DecidableEq

/-- One call `fprintf(icq, fmt, args...)`. -/
structure Call where
  fmt : String
  args : List Arg
  deriving DecidableEq

/-- Program state of `main`: the variables `i`, `j`, `k` and the calls made on the
stream `icq` so far, oldest first. -/
structure State where
  i : ℚ
  j : ℚ
  k : ℚ
  out : List Call
  deriving DecidableEq

/-- The effect of `fprintf(icq, fmt, args...)` on the state. -/
def fprintf (s : State) (fmt : String) (args : List Arg) : State :=
  { s with out := s.out ++ [⟨fmt, args⟩] }

/-! ## Text written by `fprintf` (C library behaviour for `%d` and `%f`) -/

/-- Decimal digits of a natural number, most significant first (`0` gives `"0"`). -/
def fmtNat (n : ℕ) : List Char := Nat.toDigits 10 n

/-- The conversion `%d`. -/
def fmtD (n : ℤ) : List Char :=
  if n < 0 then '-' :: fmtNat n.natAbs else fmtNat n.natAbs

/-- Nearest natural number to a non-negative rational, ties to even. -/
def roundHalfEven (q : ℚ) : ℕ :=
  let f := ⌊q⌋.toNat
  let r := q - f
  if r < 1 / 2 then f
  else if 1 / 2 < r then f + 1
  else if f % 2 = 0 then f else f + 1

/-- The six digits of `n % 10^6`, most significant first. -/
def frac6 (n : ℕ) : List Char :=
  [n / 100000 % 10, n / 10000 % 10, n / 1000 % 10, n / 100 % 10, n / 10 % 10, n % 10].map
    Nat.digitChar

/-- The conversion `%f` (default precision 6): optional sign, integer part, a point,
six fractional digits, the value being rounded to the nearest multiple of `10⁻⁶`. -/
def fmtF (x : ℚ) : List Char :=
  let m := roundHalfEven (|x| * 1000000)
  (if x < 0 then ['-'] else []) ++ fmtNat (m / 1000000) ++ '.' :: frac6 (m % 1000000)

/-- The characters `%d` and `%f` can produce: a sign, a point, a digit. -/
def IsNumChar (c : Char) : Prop := c = '-' ∨ c = '.' ∨ c.isDigit = true

/-- Interpretation of a format string against its arguments. -/
def formatChars : List Char → List Arg → List Char
  | '%' :: 'd' :: cs, Arg.int n :: as => fmtD n ++ formatChars cs as
  | '%' :: 'f' :: cs, Arg.flt x :: as => fmtF x ++ formatChars cs as
  | c :: cs, as => c :: formatChars cs as
  | [], _ => []

/-- The characters one `fprintf` call writes. -/
def render (c : Call) : List Char := formatChars c.fmt.toList c.args

/-- The content of the file: the text of all calls, in order. -/
def fileText (out : List Call) : List Char := (out.map render).flatten

/-! ## Loops -/

/-- The loop `for (init; cond; step) body`, entered in state `s` after `init`:
`cond` is tested, then `body` and `step` run, at most `fuel` tests being allowed. -/
def forLoop (cond : State → Bool) (step : State → State) (body : State → Option State) :
    ℕ → State → Option State
  | 0, _ => none
  | fuel + 1, s =>
    if cond s then (body s).bind fun s1 => forLoop cond step body fuel (step s1)
    else some s

/-! ## The six faces and `main` -/

/-- Writing vertices for face 1. -/
def face1 (rnd : ℚ → ℚ) (Q : ℤ) (L : ℚ) (fuel : ℕ) (s : State) : Option State :=
  let s := { s with k := rnd (L / 2) }
  forLoop (fun s => s.j ≤ rnd (L / 2))
    (fun s => { s with j := rnd (s.j + rnd (L / rnd Q)) })
    (fun s =>
      forLoop (fun s => s.i ≥ -rnd (L / 2))
        (fun s => { s with i := rnd (s.i - rnd (L / rnd Q)) })
        (fun s => some (fprintf s "\t%f\t%f\t%f\n" [Arg.flt s.i, Arg.flt s.j, Arg.flt s.k]))
        fuel { s with i := rnd (L / 2) })
    fuel { s with j := -rnd (L / 2) }

/-- Writing vertices for face 2. -/
def face2 (rnd : ℚ → ℚ) (Q : ℤ) (L : ℚ) (fuel : ℕ) (s : State) : Option State :=
  let s := { s with j := rnd (L / 2) }
  forLoop (fun s => s.k ≥ -rnd (L / 2))
    (fun s => { s with k := rnd (s.k - rnd (L / rnd Q)) })
    (fun s =>
      forLoop (fun s => s.i ≥ -rnd (L / 2))
        (fun s => { s with i := rnd (s.i - rnd (L / rnd Q)) })
        (fun s => some (fprintf s "\t%f\t%f\t%f\n" [Arg.flt s.i, Arg.flt s.j, Arg.flt s.k]))
        fuel { s with i := rnd (L / 2) })
    fuel { s with k := rnd (L / 2) }

/-- Writing vertices for face 3. -/
def face3 (rnd : ℚ → ℚ) (Q : ℤ) (L : ℚ) (fuel : ℕ) (s : State) : Option State :=
  let s := { s with i := rnd (L / 2) }
  forLoop (fun s => s.k ≥ -rnd (L / 2))
    (fun s => { s with k := rnd (s.k - rnd (L / rnd Q)) })
    (fun s =>
      forLoop (fun s => s.j ≤ rnd (L / 2))
        (fun s => { s with j := rnd (s.j + rnd (L / rnd Q)) })
        (fun s => some (fprintf s "\t%f\t%f\t%f\n" [Arg.flt s.i, Arg.flt s.j, Arg.flt s.k]))
        fuel { s with j := -rnd (L / 2) })
    fuel { s with k := rnd (L / 2) }

/-- Writing vertices for face 4. -/
def face4 (rnd : ℚ → ℚ) (Q : ℤ) (L : ℚ) (fuel : ℕ) (s : State) : Option State :=
  let s := { s with j := -rnd (L / 2) }
  forLoop (fun s => s.k ≥ -rnd (L / 2))
    (fun s => { s with k := rnd (s.k - rnd (L / rnd Q)) })
    (fun s =>
      forLoop (fun s => s.i ≤ rnd (L / 2))
        (fun s => { s with i := rnd (s.i + rnd (L / rnd Q)) })
        (fun s => some (fprintf s "\t%f\t%f\t%f\n" [Arg.flt s.i, Arg.flt s.j, Arg.flt s.k]))
        fuel { s with i := -rnd (L / 2) })
    fuel { s with k := rnd (L / 2) }

/-- Writing vertices for face 5. -/
def face5 (rnd : ℚ → ℚ) (Q : ℤ) (L : ℚ) (fuel : ℕ) (s : State) : Option State :=
  let s := { s with i := -rnd (L / 2) }
  forLoop (fun s => s.k ≥ -rnd (L / 2))
    (fun s => { s with k := rnd (s.k - rnd (L / rnd Q)) })
    (fun s =>
      forLoop (fun s => s.j ≥ -rnd (L / 2))
        (fun s => { s with j := rnd (s.j - rnd (L / rnd Q)) })
        (fun s => some (fprintf s "\t%f\t%f\t%f\n" [Arg.flt s.i, Arg.flt s.j, Arg.flt s.k]))
        fuel { s with j := rnd (L / 2) })
    fuel { s with k := rnd (L / 2) }

/-- Writing vertices for face 6. -/
def face6 (rnd : ℚ → ℚ) (Q : ℤ) (L : ℚ) (fuel : ℕ) (s : State) : Option State :=
  let s := { s with k := -rnd (L / 2) }
  forLoop (fun s => s.j ≥ -rnd (L / 2))
    (fun s => { s with j := rnd (s.j - rnd (L / rnd Q)) })
    (fun s =>
      forLoop (fun s => s.i ≥ -rnd (L / 2))
        (fun s => { s with i := rnd (s.i - rnd (L / rnd Q)) })
        (fun s => some (fprintf s "\t%f\t%f\t%f\n" [Arg.flt s.i, Arg.flt s.j, Arg.flt s.k]))
        fuel { s with i := rnd (L / 2) })
    fuel { s with j := rnd (L / 2) }

/-- The statements of `main` from the header `fprintf` on, for a resolution `Q` and a
side length `L` (the source fixes `Q = 4`, `L = 30.0`). -/
def mainBody (rnd : ℚ → ℚ) (Q : ℤ) (L : ℚ) (fuel : ℕ) (s : State) : Option State :=
  let s := fprintf s "\t     %d\n" [Arg.int Q]
  (((((face1 rnd Q L fuel s).bind (face2 rnd Q L fuel)).bind (face3 rnd Q L fuel)).bind
    (face4 rnd Q L fuel)).bind (face5 rnd Q L fuel)).bind (face6 rnd Q L fuel)

/-- The program `main`: the stream is opened empty (`fopen` with mode `"w"`), `Q = 4`,
`L = 30.0`, and `i`, `j`, `k` start with indeterminate values `i0`, `j0`, `k0`. -/
def main (rnd : ℚ → ℚ) (fuel : ℕ) (i0 j0 k0 : ℚ) : Option State :=
  mainBody rnd 4 (rnd 30) fuel ⟨i0, j0, k0, []⟩

/-! ## Reading the stream back: header and vertex lines -/

/-- A vertex: the triple `(x, y, z)`. -/
abbrev Vertex := ℚ × ℚ × ℚ

/-- The header call `fprintf(icq, "\t     %d\n", Q)`. -/
def headerCall (Q : ℤ) : Call := ⟨"\t     %d\n", [Arg.int Q]⟩

/-- The vertex call `fprintf(icq, "\t%f\t%f\t%f\n", x, y, z)`. -/
def vertexCall (v : Vertex) : Call :=
  ⟨"\t%f\t%f\t%f\n", [Arg.flt v.1, Arg.flt v.2.1, Arg.flt v.2.2]⟩

/-- The vertex triple of a call, when the call is a vertex call. -/
def vertexOf (c : Call) : Option Vertex :=
  if c.fmt = "\t%f\t%f\t%f\n" then
    match c.args with
    | [Arg.flt x, Arg.flt y, Arg.flt z] => some (x, y, z)
    | _ => none
  else none

/-- The sequence of vertices emitted on a stream, in order. -/
def vertices (out : List Call) : List Vertex := out.filterMap vertexOf

/-- Number of line terminators in a text. -/
def lineCount (text : List Char) : ℕ := text.count '\n'

/-! ## The integer-indexed reference traversal -/

/-- The `n`-th value of a traversal computed by index: `start + n * step`. -/
def nthValue (start step : ℚ) (n : ℕ) : ℚ := start + n * step

/-- Ascending traversal `-L/2 → +L/2`, step `+L/Q`. -/
def asc (Q : ℤ) (L : ℚ) (n : ℕ) : ℚ := nthValue (-(L / 2)) (L / Q) n

/-- Descending traversal `+L/2 → -L/2`, step `-L/Q`. -/
def desc (Q : ℤ) (L : ℚ) (n : ℕ) : ℚ := nthValue (L / 2) (-(L / Q)) n

/-- A block in nested order: for each outer index `a = 0..Q` in turn, the vertices
`f a b` for the inner indices `b = 0..Q`. -/
def block (Q : ℤ) (f : ℕ → ℕ → Vertex) : List Vertex :=
  (List.range (Q.toNat + 1)).flatMap fun a => (List.range (Q.toNat + 1)).map fun b => f a b

/-- The six blocks of the traversal table, face 1 to face 6. -/
def refFaces (Q : ℤ) (L : ℚ) : List (List Vertex) :=
  [ block Q (fun a b => (desc Q L b, asc Q L a, L / 2)),
    block Q (fun a b => (desc Q L b, L / 2, desc Q L a)),
    block Q (fun a b => (L / 2, asc Q L b, desc Q L a)),
    block Q (fun a b => (asc Q L b, -(L / 2), desc Q L a)),
    block Q (fun a b => (-(L / 2), desc Q L b, desc Q L a)),
    block Q (fun a b => (desc Q L b, desc Q L a, -(L / 2))) ]

/-- The reference vertex sequence: the six blocks one after the other. -/
def refVertices (Q : ℤ) (L : ℚ) : List Vertex := (refFaces Q L).flatten

/-- The `f`-th block of `(Q+1)²` consecutive vertices of a sequence (`f = 0` is face 1). -/
def faceBlock (Q : ℤ) (f : ℕ) (vs : List Vertex) : List Vertex :=
  (vs.drop (f * (Q.toNat + 1) ^ 2)).take ((Q.toNat + 1) ^ 2)

/-- The component that is fixed on face `f + 1`: `z` on faces 1 and 6, `y` on faces 2
and 4, `x` on faces 3 and 5. -/
def fixedComp (f : ℕ) (v : Vertex) : ℚ :=
  match f with
  | 0 => v.2.2
  | 1 => v.2.1
  | 2 => v.1
  | 3 => v.2.1
  | 4 => v.1
  | _ => v.2.2

/-- The other two components on face `f + 1`, in `x, y, z` order. -/
def freeComps (f : ℕ) (v : Vertex) : ℚ × ℚ :=
  match f with
  | 0 => (v.1, v.2.1)
  | 1 => (v.1, v.2.2)
  | 2 => (v.2.1, v.2.2)
  | 3 => (v.1, v.2.2)
  | 4 => (v.2.1, v.2.2)
  | _ => (v.1, v.2.1)

/-- The plane of face `f + 1`: `+L/2` on faces 1 to 3, `-L/2` on faces 4 to 6. -/
def facePlane (L : ℚ) (f : ℕ) : ℚ :=
  match f with
  | 0 => L / 2
  | 1 => L / 2
  | 2 => L / 2
  | _ => -(L / 2)

/-- Number of components of a vertex that equal `+L/2` or `-L/2`. -/
def planeCount (L : ℚ) (v : Vertex) : ℕ :=
  (if v.1 = L / 2 ∨ v.1 = -(L / 2) then 1 else 0) +
  (if v.2.1 = L / 2 ∨ v.2.1 = -(L / 2) then 1 else 0) +
  (if v.2.2 = L / 2 ∨ v.2.2 = -(L / 2) then 1 else 0)

/-! ## Rounding -/

/-- A rational that is a finite IEEE-754 binary32 value: `m * 2 ^ e` with a significand
of at most 24 bits and an exponent in the binary32 range. -/
def IsBinary32 (q : ℚ) : Prop :=
  ∃ m e : ℤ, |m| < 2 ^ 24 ∧ -149 ≤ e ∧ e ≤ 104 ∧ q = m * (2 : ℚ) ^ e

/-- A rounding operator to binary32: it returns a representable value unchanged. -/
def RoundsToBinary32 (rnd : ℚ → ℚ) : Prop := ∀ q, IsBinary32 q → rnd q = q

/-- The rounding operator `rnd` is exact on every value the loops of `mainBody`
compute for `Q` and `L`. -/
def ExactOn (rnd : ℚ → ℚ) (Q : ℤ) (L : ℚ) : Prop :=
  rnd Q = Q ∧ rnd (L / 2) = L / 2 ∧ rnd (L / Q) = L / Q ∧
    ∀ n : ℕ, n ≤ Q.toNat →
      rnd (desc Q L n - L / Q) = desc Q L n - L / Q ∧
      rnd (asc Q L n + L / Q) = asc Q L n + L / Q

/-! ## The loop table of `main` -/

/-- The loop variables of `main`. -/
inductive Var where
  | i
  | j
  | k
  deriving DecidableEq

/-- Reading a loop variable. -/
def Var.get : Var → State → ℚ
  | Var.i, s => s.i
  | Var.j, s => s.j
  | Var.k, s => s.k

/-- Assigning to a loop variable. -/
def Var.set : Var → ℚ → State → State
  | Var.i, x, s => { s with i := x }
  | Var.j, x, s => { s with j := x }
  | Var.k, x, s => { s with k := x }

/-- The two loop headers of `main`: `up` is
`for (v = -(L / 2); v <= (L / 2); v = v + (L / Q))` and `down` is
`for (v = (L / 2); v >= -(L / 2); v = v - (L / Q))`. -/
inductive Dir where
  | up
  | down
  deriving DecidableEq

/-- The initial value of a loop header. -/
def Dir.first (rnd : ℚ → ℚ) (L : ℚ) : Dir → ℚ
  | Dir.up => -rnd (L / 2)
  | Dir.down => rnd (L / 2)

/-- The condition of a loop header, on the value of its variable. -/
def Dir.test (rnd : ℚ → ℚ) (L : ℚ) : Dir → ℚ → Bool
  | Dir.up, x => x ≤ rnd (L / 2)
  | Dir.down, x => x ≥ -rnd (L / 2)

/-- The increment of a loop header, on the value of its variable. -/
def Dir.next (rnd : ℚ → ℚ) (Q : ℤ) (L : ℚ) : Dir → ℚ → ℚ
  | Dir.up, x => rnd (x + rnd (L / rnd Q))
  | Dir.down, x => rnd (x - rnd (L / rnd Q))

/-- The value assigned to the fixed variable of a face: `(L / 2)` or `-(L / 2)`. -/
def planeValue (rnd : ℚ → ℚ) (L : ℚ) : Bool → ℚ
  | true => rnd (L / 2)
  | false => -rnd (L / 2)

/-- One face of `main`: the fixed variable and the sign of its plane, the variable and
header of the outer loop, the variable and header of the inner loop. -/
structure FaceRow where
  fixed : Var
  plus : Bool
  outer : Var
  outerDir : Dir
  inner : Var
  innerDir : Dir
  deriving DecidableEq

/-- The six faces of `main`, in source order. -/
def loopTable : List FaceRow :=
  [ ⟨Var.k, true, Var.j, Dir.up, Var.i, Dir.down⟩,
    ⟨Var.j, true, Var.k, Dir.down, Var.i, Dir.down⟩,
    ⟨Var.i, true, Var.k, Dir.down, Var.j, Dir.up⟩,
    ⟨Var.j, false, Var.k, Dir.down, Var.i, Dir.up⟩,
    ⟨Var.i, false, Var.k, Dir.down, Var.j, Dir.down⟩,
    ⟨Var.k, false, Var.j, Dir.down, Var.i, Dir.down⟩ ]

/-- The condition of the loop on `v` with header `d`. -/
def loopCond (rnd : ℚ → ℚ) (L : ℚ) (v : Var) (d : Dir) (s : State) : Bool :=
  d.test rnd L (v.get s)

/-- The increment of the loop on `v` with header `d`. -/
def loopStep (rnd : ℚ → ℚ) (Q : ℤ) (L : ℚ) (v : Var) (d : Dir) (s : State) : State :=
  v.set (d.next rnd Q L (v.get s)) s

/-- The initialisation of the loop on `v` with header `d`. -/
def loopInit (rnd : ℚ → ℚ) (L : ℚ) (v : Var) (d : Dir) (s : State) : State :=
  v.set (d.first rnd L) s

/-- The body of every inner loop: `fprintf(icq, "\t%f\t%f\t%f\n", i, j, k);`. -/
def emitVertex (s : State) : Option State :=
  some (fprintf s "\t%f\t%f\t%f\n" [Arg.flt s.i, Arg.flt s.j, Arg.flt s.k])

/-- The inner loop of a face, entered in state `s`. -/
def innerLoop (rnd : ℚ → ℚ) (Q : ℤ) (L : ℚ) (fuel : ℕ) (r : FaceRow) (s : State) :
    Option State :=
  forLoop (loopCond rnd L r.inner r.innerDir) (loopStep rnd Q L r.inner r.innerDir)
    emitVertex fuel (loopInit rnd L r.inner r.innerDir s)

/-- The state in which the outer loop of a face is entered: the fixed variable and the
outer variable have been assigned. -/
def outerInit (rnd : ℚ → ℚ) (L : ℚ) (r : FaceRow) (s : State) : State :=
  loopInit rnd L r.outer r.outerDir (r.fixed.set (planeValue rnd L r.plus) s)

/-- A face of `main` read from its row of the loop table. -/
def faceOf (rnd : ℚ → ℚ) (Q : ℤ) (L : ℚ) (fuel : ℕ) (r : FaceRow) (s : State) :
    Option State :=
  forLoop (loopCond rnd L r.outer r.outerDir) (loopStep rnd Q L r.outer r.outerDir)
    (innerLoop rnd Q L fuel r) fuel (outerInit rnd L r s)

/-- The number of times the body of `for (init; cond; step) body` runs when the loop is
entered in state `s`, at most `fuel` tests of the condition being allowed. -/
def loopIterations (cond : State → Bool) (step : State → State)
    (body : State → Option State) : ℕ → State → Option ℕ
  | 0, _ => none
  | fuel + 1, s =>
    if cond s then
      (body s).bind fun s1 => (loopIterations cond step body fuel (step s1)).map (· + 1)
    else some 0

/-- The `n`-th value of the traversal of a loop header, computed by index. -/
def trav (Q : ℤ) (L : ℚ) : Dir → ℕ → ℚ
  | Dir.up => asc Q L
  | Dir.down => desc Q L

/-! ## The program with block-scoped loop variables -/

/-- A face run with its own variables `i`, `j`, `k`, which start with the indeterminate
values `fresh n`; only the stream comes in and goes out. -/
def scopedFace (fresh : ℕ → ℚ × ℚ × ℚ) (n : ℕ) (face : State → Option State)
    (out : List Call) : Option (List Call) :=
  (face ⟨(fresh n).1, (fresh n).2.1, (fresh n).2.2, out⟩).map State.out

/-- The statements of `main` from the header `fprintf` on, every face declaring its own
block-scoped `i`, `j`, `k`. -/
def mainScoped (rnd : ℚ → ℚ) (Q : ℤ) (L : ℚ) (fuel : ℕ) (fresh : ℕ → ℚ × ℚ × ℚ)
    (out : List Call) : Option (List Call) :=
  (((((scopedFace fresh 1 (face1 rnd Q L fuel) (out ++ [⟨"\t     %d\n", [Arg.int Q]⟩])).bind
    (scopedFace fresh 2 (face2 rnd Q L fuel))).bind
    (scopedFace fresh 3 (face3 rnd Q L fuel))).bind
    (scopedFace fresh 4 (face4 rnd Q L fuel))).bind
    (scopedFace fresh 5 (face5 rnd Q L fuel))).bind
    (scopedFace fresh 6 (face6 rnd Q L fuel))

/-! ## The process and the file `icq.txt` -/

/-- How the run ends, as far as the C language defines it: by returning from `main` with
an exit status, or in undefined behaviour, on which the language imposes no requirement
(what the process then does is decided by the C library and the platform). -/
inductive Outcome where
  | exit (status : ℤ)
  | undefined
  deriving DecidableEq

/-- The content of `icq.txt`; `none` when the file does not exist. -/
abbrev File := Option (List Char)

/-- The call `fopen("icq.txt", mode)` for the two modes that write, with the file it
leaves and the stream it returns (the calls made on the stream so far, or `none` for the
null pointer).  When the file cannot be opened it is left as it is and the null pointer
is returned.  Mode `"w"` creates the file or truncates it to length zero; mode `"a"`
creates the file or keeps its content, what is written going to its end. -/
def fopen (mode : String) (canOpen : Bool) (file : File) : File × Option (List Call) :=
  match canOpen with
  | false => (file, none)
  | true =>
    if mode = "w" then (some [], some [])
    else if mode = "a" then (some (file.getD []), some [])
    else (file, none)

/-- The file once the stream is flushed and closed: the text of the calls made on the
stream follows what the file held when the stream was opened. -/
def closeStream (file : File) (out : List Call) : File :=
  some (file.getD [] ++ fileText out)

/-- The process for a resolution `Q` and a side length `L`: `fopen("icq.txt", "w")`, then
the statements of `mainBody` on the stream.  With an open stream control reaches the end
of `main`, which returns status `0`, and the stream is flushed and closed on exit.  With
the null pointer the first statement, `fprintf(icq, ...)`, is handed a null `FILE *`,
which the source does not test for: the behaviour is undefined. -/
def runWith (rnd : ℚ → ℚ) (Q : ℤ) (L : ℚ) (fuel : ℕ) (i0 j0 k0 : ℚ) (canOpen : Bool)
    (file : File) : Option (Outcome × File) :=
  match fopen "w" canOpen file with
  | (file1, some out) =>
    (mainBody rnd Q L fuel ⟨i0, j0, k0, out⟩).map fun t =>
      (Outcome.exit 0, closeStream file1 t.out)
  | (file1, none) => some (Outcome.undefined, file1)

/-- The process of the program as written: `Q = 4`, `L = 30.0`. -/
def runMain (rnd : ℚ → ℚ) (fuel : ℕ) (i0 j0 k0 : ℚ) (canOpen : Bool) (file : File) :
    Option (Outcome × File) :=
  runWith rnd 4 (rnd 30) fuel i0 j0 k0 canOpen file

/-- Number of components of a vertex whose absolute value is `L/2`. -/
def absCount (L : ℚ) (v : Vertex) : ℕ :=
  (if |v.1| = L / 2 then 1 else 0) + (if |v.2.1| = L / 2 then 1 else 0) +
    (if |v.2.2| = L / 2 then 1 else 0)

/-- A multiple of `7.5` of absolute value at most `22.5`. -/
def OnLattice (x : ℚ) : Prop := ∃ n : ℤ, |n| ≤ 3 ∧ x = n * (15 / 2)

/-! ## Reading a line back -/

/-- The value of a decimal digit. -/
def digitValue (c : Char) : ℕ := c.toNat - '0'.toNat

/-- The natural number written by a string of decimal digits. -/
def readNat (cs : List Char) : ℕ := cs.foldl (fun n c => 10 * n + digitValue c) 0

/-- The number written by an unsigned fixed-point numeral: digits, a point, digits. -/
def readUnsigned (cs : List Char) : ℚ :=
  let whole := cs.takeWhile (fun c => c != '.')
  let frac := (cs.dropWhile (fun c => c != '.')).drop 1
  (readNat whole : ℚ) + (readNat frac : ℚ) / 10 ^ frac.length

/-- The number written by a fixed-point numeral with an optional minus sign. -/
def readFixed : List Char → ℚ
  | '-' :: cs => -readUnsigned cs
  | cs => readUnsigned cs

/-- A character that ends a field of a vertex line: tab or newline. -/
def isSeparator (c : Char) : Bool := c == '\t' || c == '\n'

/-- The first field of a text, up to the next separator, and the text from that separator
on. -/
def splitField (cs : List Char) : List Char × List Char :=
  (cs.takeWhile (fun c => !isSeparator c), cs.dropWhile (fun c => !isSeparator c))

/-- The vertex written on a vertex line: a tab, a numeral, a tab, a numeral, a tab, a
numeral and a newline; `none` for a text of another shape. -/
def readLine (cs : List Char) : Option Vertex :=
  match cs with
  | '\t' :: r1 =>
    match (splitField r1).2 with
    | '\t' :: r2 =>
      match (splitField r2).2 with
      | '\t' :: r3 =>
        match (splitField r3).2 with
        | ['\n'] =>
          some (readFixed (splitField r1).1, readFixed (splitField r2).1,
            readFixed (splitField r3).1)
        | _ => none
      | _ => none
    | _ => none
  | _ => none

/-- The number `%f` prints for `x`: the nearest multiple of `10⁻⁶`, ties to even. -/
def printed (x : ℚ) : ℚ :=
  (if x < 0 then -1 else 1) * (roundHalfEven (|x| * 1000000) : ℚ) / 1000000

/-! ## A counting rule for `forLoop` -/

theorem forLoop_count_aux (cond : State → Bool) (step : State → State)
    (body : State → Option State) (P : ℕ → State → Prop) (N : ℕ)
    (hstep : ∀ n t, n ≤ N → P n t →
      cond t = true ∧ ∃ u, body t = some u ∧ P (n + 1) (step u))
    (hexit : ∀ t, P (N + 1) t → cond t = false) :
    ∀ (r m fuel : ℕ) (s : State), m + r = N + 1 → P m s → r < fuel →
      ∃ t, forLoop cond step body fuel s = some t ∧ P (N + 1) t := by
  intro r
  induction r with
  | zero =>
    intro m fuel s hm hP hfuel
    obtain ⟨f, rfl⟩ : ∃ f, fuel = f + 1 := ⟨fuel - 1, by omega⟩
    have hmN : m = N + 1 := by omega
    subst hmN
    exact ⟨s, by simp [forLoop, hexit s hP], hP⟩
  | succ r ih =>
    intro m fuel s hm hP hfuel
    obtain ⟨f, rfl⟩ : ∃ f, fuel = f + 1 := ⟨fuel - 1, by omega⟩
    obtain ⟨hc, u, hu, hP1⟩ := hstep m s (by omega) hP
    obtain ⟨t, ht, hPt⟩ := ih (m + 1) f (step u) (by omega) hP1 (by omega)
    exact ⟨t, by simp [forLoop, hc, hu, ht], hPt⟩

/-- A loop whose `n`-th test finds the invariant `P n`, for which the tests `0..N`
succeed and the test `N + 1` fails, returns in a state satisfying `P (N + 1)`, given
fuel for `N + 2` tests. -/
theorem forLoop_count (cond : State → Bool) (step : State → State)
    (body : State → Option State) (P : ℕ → State → Prop) (N fuel : ℕ) (s : State)
    (hstep : ∀ n t, n ≤ N → P n t →
      cond t = true ∧ ∃ u, body t = some u ∧ P (n + 1) (step u))
    (hexit : ∀ t, P (N + 1) t → cond t = false)
    (h0 : P 0 s) (hfuel : N + 2 ≤ fuel) :
    ∃ t, forLoop cond step body fuel s = some t ∧ P (N + 1) t :=
  forLoop_count_aux cond step body P N hstep hexit (N + 1) 0 fuel s (by omega) h0 (by omega)

/-- The counting rule with a consequence `R` of the final invariant. -/
theorem forLoop_count_post (cond : State → Bool) (step : State → State)
    (body : State → Option State) (P : ℕ → State → Prop) (R : State → Prop)
    (N fuel : ℕ) (s : State)
    (hstep : ∀ n t, n ≤ N → P n t →
      cond t = true ∧ ∃ u, body t = some u ∧ P (n + 1) (step u))
    (hexit : ∀ t, P (N + 1) t → cond t = false)
    (h0 : P 0 s) (hfuel : N + 2 ≤ fuel) (hpost : ∀ t, P (N + 1) t → R t) :
    ∃ t, forLoop cond step body fuel s = some t ∧ R t := by
  obtain ⟨t, ht, hP⟩ := forLoop_count cond step body P N fuel s hstep hexit h0 hfuel
  exact ⟨t, ht, hpost t hP⟩

/-! ## Arithmetic of the grid values -/

theorem toNat_cast {Q : ℤ} (hQ : 1 ≤ Q) : ((Q.toNat : ℕ) : ℚ) = (Q : ℚ) := by
  have h : ((Q.toNat : ℕ) : ℤ) = Q := Int.toNat_of_nonneg (by omega)
  exact_mod_cast h

theorem desc_zero (Q : ℤ) (L : ℚ) : desc Q L 0 = L / 2 := by
  simp [desc, nthValue]

theorem asc_zero (Q : ℤ) (L : ℚ) : asc Q L 0 = -(L / 2) := by
  simp [asc, nthValue]

theorem desc_succ (Q : ℤ) (L : ℚ) (n : ℕ) : desc Q L n - L / Q = desc Q L (n + 1) := by
  simp only [desc, nthValue]; push_cast; ring

theorem asc_succ (Q : ℤ) (L : ℚ) (n : ℕ) : asc Q L n + L / Q = asc Q L (n + 1) := by
  simp only [asc, nthValue]; push_cast; ring

theorem step_mul {Q : ℤ} {L : ℚ} (hQ : 1 ≤ Q) : (Q.toNat : ℚ) * (L / Q) = L := by
  have hq : (0 : ℚ) < (Q : ℚ) := by exact_mod_cast (by omega : (0 : ℤ) < Q)
  rw [toNat_cast hQ]; field_simp

theorem step_pos {Q : ℤ} {L : ℚ} (hQ : 1 ≤ Q) (hL : 0 < L) : 0 < L / (Q : ℚ) := by
  have hq : (0 : ℚ) < (Q : ℚ) := by exact_mod_cast (by omega : (0 : ℤ) < Q)
  exact div_pos hL hq

theorem desc_eq_asc {Q : ℤ} {L : ℚ} (hQ : 1 ≤ Q) {n : ℕ} (hn : n ≤ Q.toNat) :
    desc Q L n = asc Q L (Q.toNat - n) := by
  have h := step_mul (L := L) hQ
  simp only [desc, asc, nthValue]
  rw [Nat.cast_sub hn]
  linear_combination (-1 : ℚ) * h

theorem asc_le {Q : ℤ} {L : ℚ} (hQ : 1 ≤ Q) (hL : 0 < L) {n : ℕ} (hn : n ≤ Q.toNat) :
    asc Q L n ≤ L / 2 := by
  have h := step_mul (L := L) hQ
  have hd := step_pos hQ hL
  have hn' : (n : ℚ) ≤ (Q.toNat : ℚ) := by exact_mod_cast hn
  have := mul_le_mul_of_nonneg_right hn' hd.le
  simp only [asc, nthValue]
  linarith

theorem asc_ge {Q : ℤ} {L : ℚ} (hQ : 1 ≤ Q) (hL : 0 < L) (n : ℕ) :
    -(L / 2) ≤ asc Q L n := by
  have hd := step_pos hQ hL
  have : 0 ≤ (n : ℚ) * (L / Q) := mul_nonneg (by positivity) hd.le
  simp only [asc, nthValue]
  linarith

theorem asc_exit {Q : ℤ} {L : ℚ} (hQ : 1 ≤ Q) (hL : 0 < L) :
    L / 2 < asc Q L (Q.toNat + 1) := by
  have h := step_mul (L := L) hQ
  have hd := step_pos hQ hL
  simp only [asc, nthValue]
  push_cast
  linarith

theorem desc_ge {Q : ℤ} {L : ℚ} (hQ : 1 ≤ Q) (hL : 0 < L) {n : ℕ} (hn : n ≤ Q.toNat) :
    -(L / 2) ≤ desc Q L n := by
  rw [desc_eq_asc hQ hn]; exact asc_ge hQ hL _

theorem desc_le {Q : ℤ} {L : ℚ} (hQ : 1 ≤ Q) (hL : 0 < L) {n : ℕ} (hn : n ≤ Q.toNat) :
    desc Q L n ≤ L / 2 := by
  rw [desc_eq_asc hQ hn]; exact asc_le hQ hL (Nat.sub_le _ _)

theorem desc_exit {Q : ℤ} {L : ℚ} (hQ : 1 ≤ Q) (hL : 0 < L) :
    desc Q L (Q.toNat + 1) < -(L / 2) := by
  have h := step_mul (L := L) hQ
  have hd := step_pos hQ hL
  simp only [desc, nthValue]
  push_cast
  linarith

theorem asc_injOn {Q : ℤ} {L : ℚ} (hQ : 1 ≤ Q) (hL : 0 < L) {a b : ℕ}
    (h : asc Q L a = asc Q L b) : a = b := by
  have hd := step_pos hQ hL
  simp only [asc, nthValue] at h
  have h2 : ((a : ℚ) - b) * (L / Q) = 0 := by linarith
  rcases mul_eq_zero.mp h2 with h3 | h3
  · have : (a : ℚ) = b := by linarith
    exact_mod_cast this
  · exact absurd h3 hd.ne'

/-! ## The inner loops -/

theorem inner_i_desc {rnd : ℚ → ℚ} {Q : ℤ} {L : ℚ} (hE : ExactOn rnd Q L) (hQ : 1 ≤ Q)
    (hL : 0 < L) {fuel : ℕ} (hfuel : Q.toNat + 2 ≤ fuel) (s : State) :
    ∃ t, forLoop (fun s => s.i ≥ -rnd (L / 2))
        (fun s => { s with i := rnd (s.i - rnd (L / rnd Q)) })
        (fun s => some (fprintf s "\t%f\t%f\t%f\n" [Arg.flt s.i, Arg.flt s.j, Arg.flt s.k]))
        fuel { s with i := rnd (L / 2) } = some t ∧
      t.i = desc Q L (Q.toNat + 1) ∧ t.j = s.j ∧ t.k = s.k ∧
      t.out = s.out ++
        (List.range (Q.toNat + 1)).map fun b => vertexCall (desc Q L b, s.j, s.k) := by
  obtain ⟨hq, hh, hd, hg⟩ := hE
  simp only [hq, hh, hd]
  apply forLoop_count _ _ _ (fun n t => t.i = desc Q L n ∧ t.j = s.j ∧ t.k = s.k ∧
      t.out = s.out ++ (List.range n).map fun b => vertexCall (desc Q L b, s.j, s.k))
    Q.toNat fuel
  · rintro n t hn ⟨hv, h1, h2, ho⟩
    refine ⟨?_, _, rfl, ?_, ?_, ?_, ?_⟩
    · simp [hv, desc_ge hQ hL hn]
    · simp only [fprintf, hv]; rw [(hg n hn).1, desc_succ]
    · simp [fprintf, h1]
    · simp [fprintf, h2]
    · simp [fprintf, ho, List.range_succ, hv, h1, h2, vertexCall]
  · rintro t ⟨hv, -⟩
    simp [hv, desc_exit hQ hL]
  · simp [desc_zero]
  · exact hfuel

theorem inner_i_asc {rnd : ℚ → ℚ} {Q : ℤ} {L : ℚ} (hE : ExactOn rnd Q L) (hQ : 1 ≤ Q)
    (hL : 0 < L) {fuel : ℕ} (hfuel : Q.toNat + 2 ≤ fuel) (s : State) :
    ∃ t, forLoop (fun s => s.i ≤ rnd (L / 2))
        (fun s => { s with i := rnd (s.i + rnd (L / rnd Q)) })
        (fun s => some (fprintf s "\t%f\t%f\t%f\n" [Arg.flt s.i, Arg.flt s.j, Arg.flt s.k]))
        fuel { s with i := -rnd (L / 2) } = some t ∧
      t.i = asc Q L (Q.toNat + 1) ∧ t.j = s.j ∧ t.k = s.k ∧
      t.out = s.out ++
        (List.range (Q.toNat + 1)).map fun b => vertexCall (asc Q L b, s.j, s.k) := by
  obtain ⟨hq, hh, hd, hg⟩ := hE
  simp only [hq, hh, hd]
  apply forLoop_count _ _ _ (fun n t => t.i = asc Q L n ∧ t.j = s.j ∧ t.k = s.k ∧
      t.out = s.out ++ (List.range n).map fun b => vertexCall (asc Q L b, s.j, s.k))
    Q.toNat fuel
  · rintro n t hn ⟨hv, h1, h2, ho⟩
    refine ⟨?_, _, rfl, ?_, ?_, ?_, ?_⟩
    · simp [hv, asc_le hQ hL hn]
    · simp only [fprintf, hv]; rw [(hg n hn).2, asc_succ]
    · simp [fprintf, h1]
    · simp [fprintf, h2]
    · simp [fprintf, ho, List.range_succ, hv, h1, h2, vertexCall]
  · rintro t ⟨hv, -⟩
    simp [hv, asc_exit hQ hL]
  · simp [asc_zero]
  · exact hfuel

theorem inner_j_asc {rnd : ℚ → ℚ} {Q : ℤ} {L : ℚ} (hE : ExactOn rnd Q L) (hQ : 1 ≤ Q)
    (hL : 0 < L) {fuel : ℕ} (hfuel : Q.toNat + 2 ≤ fuel) (s : State) :
    ∃ t, forLoop (fun s => s.j ≤ rnd (L / 2))
        (fun s => { s with j := rnd (s.j + rnd (L / rnd Q)) })
        (fun s => some (fprintf s "\t%f\t%f\t%f\n" [Arg.flt s.i, Arg.flt s.j, Arg.flt s.k]))
        fuel { s with j := -rnd (L / 2) } = some t ∧
      t.j = asc Q L (Q.toNat + 1) ∧ t.i = s.i ∧ t.k = s.k ∧
      t.out = s.out ++
        (List.range (Q.toNat + 1)).map fun b => vertexCall (s.i, asc Q L b, s.k) := by
  obtain ⟨hq, hh, hd, hg⟩ := hE
  simp only [hq, hh, hd]
  apply forLoop_count _ _ _ (fun n t => t.j = asc Q L n ∧ t.i = s.i ∧ t.k = s.k ∧
      t.out = s.out ++ (List.range n).map fun b => vertexCall (s.i, asc Q L b, s.k))
    Q.toNat fuel
  · rintro n t hn ⟨hv, h1, h2, ho⟩
    refine ⟨?_, _, rfl, ?_, ?_, ?_, ?_⟩
    · simp [hv, asc_le hQ hL hn]
    · simp only [fprintf, hv]; rw [(hg n hn).2, asc_succ]
    · simp [fprintf, h1]
    · simp [fprintf, h2]
    · simp [fprintf, ho, List.range_succ, hv, h1, h2, vertexCall]
  · rintro t ⟨hv, -⟩
    simp [hv, asc_exit hQ hL]
  · simp [asc_zero]
  · exact hfuel

theorem inner_j_desc {rnd : ℚ → ℚ} {Q : ℤ} {L : ℚ} (hE : ExactOn rnd Q L) (hQ : 1 ≤ Q)
    (hL : 0 < L) {fuel : ℕ} (hfuel : Q.toNat + 2 ≤ fuel) (s : State) :
    ∃ t, forLoop (fun s => s.j ≥ -rnd (L / 2))
        (fun s => { s with j := rnd (s.j - rnd (L / rnd Q)) })
        (fun s => some (fprintf s "\t%f\t%f\t%f\n" [Arg.flt s.i, Arg.flt s.j, Arg.flt s.k]))
        fuel { s with j := rnd (L / 2) } = some t ∧
      t.j = desc Q L (Q.toNat + 1) ∧ t.i = s.i ∧ t.k = s.k ∧
      t.out = s.out ++
        (List.range (Q.toNat + 1)).map fun b => vertexCall (s.i, desc Q L b, s.k) := by
  obtain ⟨hq, hh, hd, hg⟩ := hE
  simp only [hq, hh, hd]
  apply forLoop_count _ _ _ (fun n t => t.j = desc Q L n ∧ t.i = s.i ∧ t.k = s.k ∧
      t.out = s.out ++ (List.range n).map fun b => vertexCall (s.i, desc Q L b, s.k))
    Q.toNat fuel
  · rintro n t hn ⟨hv, h1, h2, ho⟩
    refine ⟨?_, _, rfl, ?_, ?_, ?_, ?_⟩
    · simp [hv, desc_ge hQ hL hn]
    · simp only [fprintf, hv]; rw [(hg n hn).1, desc_succ]
    · simp [fprintf, h1]
    · simp [fprintf, h2]
    · simp [fprintf, ho, List.range_succ, hv, h1, h2, vertexCall]
  · rintro t ⟨hv, -⟩
    simp [hv, desc_exit hQ hL]
  · simp [desc_zero]
  · exact hfuel

/-! ## The six faces -/

theorem face1_spec {rnd : ℚ → ℚ} {Q : ℤ} {L : ℚ} (hE : ExactOn rnd Q L) (hQ : 1 ≤ Q)
    (hL : 0 < L) {fuel : ℕ} (hfuel : Q.toNat + 2 ≤ fuel) (s : State) :
    ∃ t, face1 rnd Q L fuel s = some t ∧
      t.i = desc Q L (Q.toNat + 1) ∧ t.j = asc Q L (Q.toNat + 1) ∧
      t.k = L / 2 ∧
      t.out = s.out ++ (block Q fun a b => (desc Q L b, asc Q L a, L / 2)).map vertexCall := by
  have hin := inner_i_desc hE hQ hL hfuel
  obtain ⟨hq, hh, hd, hg⟩ := hE
  unfold face1
  simp only [hq, hh, hd] at hin ⊢
  apply forLoop_count_post _ _ _
    (fun n t => (0 < n → t.i = desc Q L (Q.toNat + 1)) ∧ t.j = asc Q L n ∧
      t.k = L / 2 ∧
      t.out = s.out ++ ((List.range n).flatMap fun a =>
        (List.range (Q.toNat + 1)).map fun b => (desc Q L b, asc Q L a, L / 2)).map vertexCall)
    _ Q.toNat fuel
  · rintro n t hn ⟨-, hO, hF, ho⟩
    obtain ⟨u, hu, uI, u1, u2, uo⟩ := hin t
    refine ⟨?_, u, hu, ?_, ?_, ?_, ?_⟩
    · simp [hO, asc_le hQ hL hn]
    · intro _; exact uI
    · simp only [u1, u2, hO]; rw [(hg n hn).2, asc_succ]
    · simp [u1, u2, hF]
    · simp [uo, ho, hO, hF, List.range_succ]
  · rintro t ⟨-, hO, -⟩
    simp [hO, asc_exit hQ hL]
  · simp [asc_zero]
  · exact hfuel
  · rintro t ⟨hI, hO, hF, ho⟩
    exact ⟨hI (by omega), hO, hF, ho⟩

theorem face2_spec {rnd : ℚ → ℚ} {Q : ℤ} {L : ℚ} (hE : ExactOn rnd Q L) (hQ : 1 ≤ Q)
    (hL : 0 < L) {fuel : ℕ} (hfuel : Q.toNat + 2 ≤ fuel) (s : State) :
    ∃ t, face2 rnd Q L fuel s = some t ∧
      t.i = desc Q L (Q.toNat + 1) ∧ t.k = desc Q L (Q.toNat + 1) ∧
      t.j = L / 2 ∧
      t.out = s.out ++ (block Q fun a b => (desc Q L b, L / 2, desc Q L a)).map vertexCall := by
  have hin := inner_i_desc hE hQ hL hfuel
  obtain ⟨hq, hh, hd, hg⟩ := hE
  unfold face2
  simp only [hq, hh, hd] at hin ⊢
  apply forLoop_count_post _ _ _
    (fun n t => (0 < n → t.i = desc Q L (Q.toNat + 1)) ∧ t.k = desc Q L n ∧
      t.j = L / 2 ∧
      t.out = s.out ++ ((List.range n).flatMap fun a =>
        (List.range (Q.toNat + 1)).map fun b => (desc Q L b, L / 2, desc Q L a)).map vertexCall)
    _ Q.toNat fuel
  · rintro n t hn ⟨-, hO, hF, ho⟩
    obtain ⟨u, hu, uI, u1, u2, uo⟩ := hin t
    refine ⟨?_, u, hu, ?_, ?_, ?_, ?_⟩
    · simp [hO, desc_ge hQ hL hn]
    · intro _; exact uI
    · simp only [u1, u2, hO]; rw [(hg n hn).1, desc_succ]
    · simp [u1, u2, hF]
    · simp [uo, ho, hO, hF, List.range_succ]
  · rintro t ⟨-, hO, -⟩
    simp [hO, desc_exit hQ hL]
  · simp [desc_zero]
  · exact hfuel
  · rintro t ⟨hI, hO, hF, ho⟩
    exact ⟨hI (by omega), hO, hF, ho⟩

theorem face3_spec {rnd : ℚ → ℚ} {Q : ℤ} {L : ℚ} (hE : ExactOn rnd Q L) (hQ : 1 ≤ Q)
    (hL : 0 < L) {fuel : ℕ} (hfuel : Q.toNat + 2 ≤ fuel) (s : State) :
    ∃ t, face3 rnd Q L fuel s = some t ∧
      t.j = asc Q L (Q.toNat + 1) ∧ t.k = desc Q L (Q.toNat + 1) ∧
      t.i = L / 2 ∧
      t.out = s.out ++ (block Q fun a b => (L / 2, asc Q L b, desc Q L a)).map vertexCall := by
  have hin := inner_j_asc hE hQ hL hfuel
  obtain ⟨hq, hh, hd, hg⟩ := hE
  unfold face3
  simp only [hq, hh, hd] at hin ⊢
  apply forLoop_count_post _ _ _
    (fun n t => (0 < n → t.j = asc Q L (Q.toNat + 1)) ∧ t.k = desc Q L n ∧
      t.i = L / 2 ∧
      t.out = s.out ++ ((List.range n).flatMap fun a =>
        (List.range (Q.toNat + 1)).map fun b => (L / 2, asc Q L b, desc Q L a)).map vertexCall)
    _ Q.toNat fuel
  · rintro n t hn ⟨-, hO, hF, ho⟩
    obtain ⟨u, hu, uI, u1, u2, uo⟩ := hin t
    refine ⟨?_, u, hu, ?_, ?_, ?_, ?_⟩
    · simp [hO, desc_ge hQ hL hn]
    · intro _; exact uI
    · simp only [u1, u2, hO]; rw [(hg n hn).1, desc_succ]
    · simp [u1, u2, hF]
    · simp [uo, ho, hO, hF, List.range_succ]
  · rintro t ⟨-, hO, -⟩
    simp [hO, desc_exit hQ hL]
  · simp [desc_zero]
  · exact hfuel
  · rintro t ⟨hI, hO, hF, ho⟩
    exact ⟨hI (by omega), hO, hF, ho⟩

theorem face4_spec {rnd : ℚ → ℚ} {Q : ℤ} {L : ℚ} (hE : ExactOn rnd Q L) (hQ : 1 ≤ Q)
    (hL : 0 < L) {fuel : ℕ} (hfuel : Q.toNat + 2 ≤ fuel) (s : State) :
    ∃ t, face4 rnd Q L fuel s = some t ∧
      t.i = asc Q L (Q.toNat + 1) ∧ t.k = desc Q L (Q.toNat + 1) ∧
      t.j = -(L / 2) ∧
      t.out = s.out ++ (block Q fun a b => (asc Q L b, -(L / 2), desc Q L a)).map vertexCall := by
  have hin := inner_i_asc hE hQ hL hfuel
  obtain ⟨hq, hh, hd, hg⟩ := hE
  unfold face4
  simp only [hq, hh, hd] at hin ⊢
  apply forLoop_count_post _ _ _
    (fun n t => (0 < n → t.i = asc Q L (Q.toNat + 1)) ∧ t.k = desc Q L n ∧
      t.j = -(L / 2) ∧
      t.out = s.out ++ ((List.range n).flatMap fun a =>
        (List.range (Q.toNat + 1)).map fun b => (asc Q L b, -(L / 2), desc Q L a)).map vertexCall)
    _ Q.toNat fuel
  · rintro n t hn ⟨-, hO, hF, ho⟩
    obtain ⟨u, hu, uI, u1, u2, uo⟩ := hin t
    refine ⟨?_, u, hu, ?_, ?_, ?_, ?_⟩
    · simp [hO, desc_ge hQ hL hn]
    · intro _; exact uI
    · simp only [u1, u2, hO]; rw [(hg n hn).1, desc_succ]
    · simp [u1, u2, hF]
    · simp [uo, ho, hO, hF, List.range_succ]
  · rintro t ⟨-, hO, -⟩
    simp [hO, desc_exit hQ hL]
  · simp [desc_zero]
  · exact hfuel
  · rintro t ⟨hI, hO, hF, ho⟩
    exact ⟨hI (by omega), hO, hF, ho⟩

theorem face5_spec {rnd : ℚ → ℚ} {Q : ℤ} {L : ℚ} (hE : ExactOn rnd Q L) (hQ : 1 ≤ Q)
    (hL : 0 < L) {fuel : ℕ} (hfuel : Q.toNat + 2 ≤ fuel) (s : State) :
    ∃ t, face5 rnd Q L fuel s = some t ∧
      t.j = desc Q L (Q.toNat + 1) ∧ t.k = desc Q L (Q.toNat + 1) ∧
      t.i = -(L / 2) ∧
      t.out = s.out ++ (block Q fun a b => (-(L / 2), desc Q L b, desc Q L a)).map vertexCall := by
  have hin := inner_j_desc hE hQ hL hfuel
  obtain ⟨hq, hh, hd, hg⟩ := hE
  unfold face5
  simp only [hq, hh, hd] at hin ⊢
  apply forLoop_count_post _ _ _
    (fun n t => (0 < n → t.j = desc Q L (Q.toNat + 1)) ∧ t.k = desc Q L n ∧
      t.i = -(L / 2) ∧
      t.out = s.out ++ ((List.range n).flatMap fun a =>
        (List.range (Q.toNat + 1)).map fun b => (-(L / 2), desc Q L b, desc Q L a)).map vertexCall)
    _ Q.toNat fuel
  · rintro n t hn ⟨-, hO, hF, ho⟩
    obtain ⟨u, hu, uI, u1, u2, uo⟩ := hin t
    refine ⟨?_, u, hu, ?_, ?_, ?_, ?_⟩
    · simp [hO, desc_ge hQ hL hn]
    · intro _; exact uI
    · simp only [u1, u2, hO]; rw [(hg n hn).1, desc_succ]
    · simp [u1, u2, hF]
    · simp [uo, ho, hO, hF, List.range_succ]
  · rintro t ⟨-, hO, -⟩
    simp [hO, desc_exit hQ hL]
  · simp [desc_zero]
  · exact hfuel
  · rintro t ⟨hI, hO, hF, ho⟩
    exact ⟨hI (by omega), hO, hF, ho⟩

theorem face6_spec {rnd : ℚ → ℚ} {Q : ℤ} {L : ℚ} (hE : ExactOn rnd Q L) (hQ : 1 ≤ Q)
    (hL : 0 < L) {fuel : ℕ} (hfuel : Q.toNat + 2 ≤ fuel) (s : State) :
    ∃ t, face6 rnd Q L fuel s = some t ∧
      t.i = desc Q L (Q.toNat + 1) ∧ t.j = desc Q L (Q.toNat + 1) ∧
      t.k = -(L / 2) ∧
      t.out = s.out ++ (block Q fun a b => (desc Q L b, desc Q L a, -(L / 2))).map vertexCall := by
  have hin := inner_i_desc hE hQ hL hfuel
  obtain ⟨hq, hh, hd, hg⟩ := hE
  unfold face6
  simp only [hq, hh, hd] at hin ⊢
  apply forLoop_count_post _ _ _
    (fun n t => (0 < n → t.i = desc Q L (Q.toNat + 1)) ∧ t.j = desc Q L n ∧
      t.k = -(L / 2) ∧
      t.out = s.out ++ ((List.range n).flatMap fun a =>
        (List.range (Q.toNat + 1)).map fun b => (desc Q L b, desc Q L a, -(L / 2))).map vertexCall)
    _ Q.toNat fuel
  · rintro n t hn ⟨-, hO, hF, ho⟩
    obtain ⟨u, hu, uI, u1, u2, uo⟩ := hin t
    refine ⟨?_, u, hu, ?_, ?_, ?_, ?_⟩
    · simp [hO, desc_ge hQ hL hn]
    · intro _; exact uI
    · simp only [u1, u2, hO]; rw [(hg n hn).1, desc_succ]
    · simp [u1, u2, hF]
    · simp [uo, ho, hO, hF, List.range_succ]
  · rintro t ⟨-, hO, -⟩
    simp [hO, desc_exit hQ hL]
  · simp [desc_zero]
  · exact hfuel
  · rintro t ⟨hI, hO, hF, ho⟩
    exact ⟨hI (by omega), hO, hF, ho⟩

/-! ## The whole of `main` -/

/-- Under exact rounding and with fuel for `Q + 2` tests per loop, `mainBody` returns;
it has appended the header call and the vertex calls of the reference sequence, and it
leaves `i`, `j`, `k` as the last face does. -/
theorem mainBody_spec {rnd : ℚ → ℚ} {Q : ℤ} {L : ℚ} (hE : ExactOn rnd Q L) (hQ : 1 ≤ Q)
    (hL : 0 < L) {fuel : ℕ} (hfuel : Q.toNat + 2 ≤ fuel) (s : State) :
    ∃ t, mainBody rnd Q L fuel s = some t ∧
      t.i = desc Q L (Q.toNat + 1) ∧ t.j = desc Q L (Q.toNat + 1) ∧ t.k = -(L / 2) ∧
      t.out = s.out ++ headerCall Q :: (refVertices Q L).map vertexCall := by
  obtain ⟨t1, h1, -, -, -, o1⟩ :=
    face1_spec hE hQ hL hfuel (fprintf s "\t     %d\n" [Arg.int Q])
  obtain ⟨t2, h2, -, -, -, o2⟩ := face2_spec hE hQ hL hfuel t1
  obtain ⟨t3, h3, -, -, -, o3⟩ := face3_spec hE hQ hL hfuel t2
  obtain ⟨t4, h4, -, -, -, o4⟩ := face4_spec hE hQ hL hfuel t3
  obtain ⟨t5, h5, -, -, -, o5⟩ := face5_spec hE hQ hL hfuel t4
  obtain ⟨t6, h6, hi, hj, hk, o6⟩ := face6_spec hE hQ hL hfuel t5
  refine ⟨t6, ?_, hi, hj, hk, ?_⟩
  · simp [mainBody, h1, h2, h3, h4, h5, h6]
  · simp [o6, o5, o4, o3, o2, o1, fprintf, headerCall, refVertices, refFaces]

theorem exactOn_id (Q : ℤ) (L : ℚ) : ExactOn id Q L :=
  ⟨rfl, rfl, rfl, fun _ _ => ⟨rfl, rfl⟩⟩


/-! ## Reading the stream of `main` back -/

theorem vertexOf_vertexCall (v : Vertex) : vertexOf (vertexCall v) = some v := by
  simp [vertexOf, vertexCall]

theorem vertexOf_headerCall (Q : ℤ) : vertexOf (headerCall Q) = none := by
  have h : ¬ ("\t     %d\n" = "\t%f\t%f\t%f\n") := by decide
  simp [vertexOf, headerCall, h]

theorem vertices_map_vertexCall (l : List Vertex) : vertices (l.map vertexCall) = l := by
  induction l with
  | nil => rfl
  | cons v l ih =>
    simp only [vertices] at ih
    simp [vertices, List.filterMap_cons, vertexOf_vertexCall, ih]

theorem vertices_header_cons (Q : ℤ) (l : List Vertex) :
    vertices (headerCall Q :: l.map vertexCall) = l := by
  have h := vertices_map_vertexCall l
  simp only [vertices] at h
  simp [vertices, List.filterMap_cons, vertexOf_headerCall, h]

/-- Exact arithmetic: `mainBody` returns, and its stream is the header call followed by
the vertex calls of the reference sequence. -/
theorem mainBody_id {Q : ℤ} {L : ℚ} (hQ : 1 ≤ Q) (hL : 0 < L) {fuel : ℕ}
    (hfuel : Q.toNat + 2 ≤ fuel) (i0 j0 k0 : ℚ) :
    ∃ t, mainBody id Q L fuel ⟨i0, j0, k0, []⟩ = some t ∧
      t.i = desc Q L (Q.toNat + 1) ∧ t.j = desc Q L (Q.toNat + 1) ∧ t.k = -(L / 2) ∧
      t.out = headerCall Q :: (refVertices Q L).map vertexCall ∧
      vertices t.out = refVertices Q L := by
  obtain ⟨t, ht, hi, hj, hk, ho⟩ :=
    mainBody_spec (exactOn_id Q L) hQ hL hfuel ⟨i0, j0, k0, []⟩
  simp only [List.nil_append] at ho
  exact ⟨t, ht, hi, hj, hk, ho, by rw [ho, vertices_header_cons]⟩

/-! ## The hard-coded `Q = 4`, `L = 30.0` in binary32 -/

theorem isBinary32_half (m : ℤ) (hm : |m| < 2 ^ 24) : IsBinary32 ((m : ℚ) / 2) :=
  ⟨m, -1, hm, by norm_num, by norm_num, by rw [zpow_neg_one]; ring⟩

theorem rounds_half {rnd : ℚ → ℚ} (hr : RoundsToBinary32 rnd) (m : ℤ) (hm : |m| < 2 ^ 24)
    (x : ℚ) (hx : x = (m : ℚ) / 2) : rnd x = x := by
  subst hx; exact hr _ (isBinary32_half m hm)

theorem exactOn_main {rnd : ℚ → ℚ} (hr : RoundsToBinary32 rnd) :
    rnd 30 = 30 ∧ ExactOn rnd 4 30 := by
  have h60 : |(60 : ℤ)| < 2 ^ 24 := by norm_num
  refine ⟨rounds_half hr 60 (by norm_num) _ (by norm_num),
    rounds_half hr 8 (by norm_num) _ (by norm_num),
    rounds_half hr 30 (by norm_num) _ (by norm_num),
    rounds_half hr 15 (by norm_num) _ (by norm_num), ?_⟩
  intro n hn
  have hn4 : n ≤ 4 := by simpa using hn
  interval_cases n
  · exact ⟨rounds_half hr 15 (by norm_num) _ (by norm_num [desc, nthValue]),
      rounds_half hr (-15) (by norm_num) _ (by norm_num [asc, nthValue])⟩
  · exact ⟨rounds_half hr 0 (by norm_num) _ (by norm_num [desc, nthValue]),
      rounds_half hr 0 (by norm_num) _ (by norm_num [asc, nthValue])⟩
  · exact ⟨rounds_half hr (-15) (by norm_num) _ (by norm_num [desc, nthValue]),
      rounds_half hr 15 (by norm_num) _ (by norm_num [asc, nthValue])⟩
  · exact ⟨rounds_half hr (-30) (by norm_num) _ (by norm_num [desc, nthValue]),
      rounds_half hr 30 (by norm_num) _ (by norm_num [asc, nthValue])⟩
  · exact ⟨rounds_half hr (-45) (by norm_num) _ (by norm_num [desc, nthValue]),
      rounds_half hr 45 (by norm_num) _ (by norm_num [asc, nthValue])⟩

theorem roundsToBinary32_id : RoundsToBinary32 id := fun _ _ => rfl

/-- The program `main` returns under any rounding to binary32, given fuel for six tests
per loop; its stream is the header call followed by the vertex calls of the reference
sequence for `Q = 4`, `L = 30`. -/
theorem main_spec {rnd : ℚ → ℚ} (hr : RoundsToBinary32 rnd) {fuel : ℕ} (hfuel : 6 ≤ fuel)
    (i0 j0 k0 : ℚ) :
    ∃ t, main rnd fuel i0 j0 k0 = some t ∧
      t.out = headerCall 4 :: (refVertices 4 30).map vertexCall ∧
      vertices t.out = refVertices 4 30 := by
  obtain ⟨h30, hE⟩ := exactOn_main hr
  obtain ⟨t, ht, -, -, -, ho⟩ :=
    @mainBody_spec rnd 4 30 hE (by norm_num) (by norm_num) fuel (by simpa using hfuel)
      ⟨i0, j0, k0, []⟩
  simp only [List.nil_append] at ho
  exact ⟨t, by rw [main, h30, ht], ho, by rw [ho, vertices_header_cons]⟩


/-! ## Blocks as grids -/

/-- The nested list over the index square `0..N × 0..N`, outer index first. -/
theorem mem_grid {α : Type} (N : ℕ) (g : ℕ → ℕ → α) (x : α) :
    (x ∈ (List.range (N + 1)).flatMap fun a => (List.range (N + 1)).map fun b => g a b) ↔
      ∃ a b, a ≤ N ∧ b ≤ N ∧ g a b = x := by
  simp only [List.mem_flatMap, List.mem_map, List.mem_range, Nat.lt_succ_iff]
  constructor
  · rintro ⟨a, ha, b, hb, h⟩; exact ⟨a, b, ha, hb, h⟩
  · rintro ⟨a, b, ha, hb, h⟩; exact ⟨a, ha, b, hb, h⟩

theorem length_grid {α : Type} (N M : ℕ) (g : ℕ → ℕ → α) :
    ((List.range M).flatMap fun a => (List.range (N + 1)).map fun b => g a b).length =
      M * (N + 1) := by
  induction M with
  | zero => simp
  | succ M ih =>
    rw [List.range_succ M, List.flatMap_append, List.length_append, ih]
    simp
    ring

theorem nodup_grid {α : Type} (N : ℕ) (g : ℕ → ℕ → α)
    (hinj : ∀ a b c d, a ≤ N → b ≤ N → c ≤ N → d ≤ N → g a b = g c d → a = c ∧ b = d) :
    ((List.range (N + 1)).flatMap fun a => (List.range (N + 1)).map fun b => g a b).Nodup := by
  have hp : ((List.range (N + 1)).flatMap fun a => (List.range (N + 1)).map fun b => g a b) =
      (List.product (List.range (N + 1)) (List.range (N + 1))).map fun p => g p.1 p.2 := by
    simp only [List.product, List.map_flatMap, List.map_map]
    rfl
  rw [hp]
  refine List.Nodup.map_on ?_ ((List.nodup_range _).product (List.nodup_range _))
  rintro ⟨a, b⟩ hab ⟨c, d⟩ hcd h
  simp only [List.pair_mem_product, List.mem_range, Nat.lt_succ_iff] at hab hcd
  obtain ⟨h1, h2⟩ := hinj a b c d hab.1 hab.2 hcd.1 hcd.2 h
  rw [h1, h2]

theorem mem_block (Q : ℤ) (f : ℕ → ℕ → Vertex) (v : Vertex) :
    v ∈ block Q f ↔ ∃ a b, a ≤ Q.toNat ∧ b ≤ Q.toNat ∧ f a b = v :=
  mem_grid Q.toNat f v

theorem length_block (Q : ℤ) (f : ℕ → ℕ → Vertex) :
    (block Q f).length = (Q.toNat + 1) ^ 2 := by
  rw [block, length_grid]; ring

/-- Consecutive chunks of a concatenation of lists of one length `M`. -/
theorem chunk_flatten {α : Type} (M : ℕ) :
    ∀ (ls : List (List α)), (∀ l ∈ ls, l.length = M) → ∀ (f : ℕ) (B : List α),
      ls[f]? = some B → ((ls.flatten).drop (f * M)).take M = B := by
  intro ls
  induction ls with
  | nil => intro _ f B h; simp at h
  | cons l ls ih =>
    intro hl f B h
    have hlen : l.length = M := hl l (List.mem_cons_self _ _)
    cases f with
    | zero =>
      simp only [List.getElem?_cons_zero, Option.some.injEq] at h
      subst h
      simp [List.take_left' hlen]
    | succ f =>
      simp only [List.getElem?_cons_succ] at h
      have hdrop : (l ++ ls.flatten).drop ((f + 1) * M) = ls.flatten.drop (f * M) := by
        have : (f + 1) * M = l.length + f * M := by rw [hlen]; ring
        rw [this, List.drop_append]
      rw [List.flatten_cons, hdrop]
      exact ih (fun l' hl' => hl l' (List.mem_cons_of_mem _ hl')) f B h

theorem length_refFaces (Q : ℤ) (L : ℚ) :
    ∀ l ∈ refFaces Q L, l.length = (Q.toNat + 1) ^ 2 := by
  intro l hl
  simp only [refFaces, List.mem_cons, List.mem_singleton, List.not_mem_nil, or_false] at hl
  rcases hl with h | h | h | h | h | h <;> rw [h, length_block]

theorem faceBlock_ref (Q : ℤ) (L : ℚ) (f : ℕ) (B : List Vertex)
    (h : (refFaces Q L)[f]? = some B) : faceBlock Q f (refVertices Q L) = B :=
  chunk_flatten _ (refFaces Q L) (length_refFaces Q L) f B h

theorem length_refVertices (Q : ℤ) (L : ℚ) :
    (refVertices Q L).length = 6 * (Q.toNat + 1) ^ 2 := by
  simp only [refVertices, refFaces, List.flatten_cons, List.flatten_nil, List.length_append,
    length_block, List.length_nil]
  ring

theorem mem_refVertices (Q : ℤ) (L : ℚ) (v : Vertex) :
    v ∈ refVertices Q L ↔ ∃ a b, a ≤ Q.toNat ∧ b ≤ Q.toNat ∧
      (v = (desc Q L b, asc Q L a, L / 2) ∨ v = (desc Q L b, L / 2, desc Q L a) ∨
       v = (L / 2, asc Q L b, desc Q L a) ∨ v = (asc Q L b, -(L / 2), desc Q L a) ∨
       v = (-(L / 2), desc Q L b, desc Q L a) ∨ v = (desc Q L b, desc Q L a, -(L / 2))) := by
  simp only [refVertices, refFaces, List.flatten_cons, List.flatten_nil, List.mem_append,
    mem_block, List.not_mem_nil, or_false]
  constructor
  · rintro (⟨a, b, ha, hb, h⟩ | ⟨a, b, ha, hb, h⟩ | ⟨a, b, ha, hb, h⟩ | ⟨a, b, ha, hb, h⟩ |
      ⟨a, b, ha, hb, h⟩ | ⟨a, b, ha, hb, h⟩) <;> refine ⟨a, b, ha, hb, ?_⟩ <;> simp [← h]
  · rintro ⟨a, b, ha, hb, h | h | h | h | h | h⟩
    · exact Or.inl ⟨a, b, ha, hb, h.symm⟩
    · exact Or.inr (Or.inl ⟨a, b, ha, hb, h.symm⟩)
    · exact Or.inr (Or.inr (Or.inl ⟨a, b, ha, hb, h.symm⟩))
    · exact Or.inr (Or.inr (Or.inr (Or.inl ⟨a, b, ha, hb, h.symm⟩)))
    · exact Or.inr (Or.inr (Or.inr (Or.inr (Or.inl ⟨a, b, ha, hb, h.symm⟩))))
    · exact Or.inr (Or.inr (Or.inr (Or.inr (Or.inr ⟨a, b, ha, hb, h.symm⟩))))


/-! ## The text of a line -/

theorem digitChar_isDigit (d : ℕ) (hd : d < 10) : (Nat.digitChar d).isDigit = true := by
  interval_cases d <;> decide

theorem toDigitsCore_isDigit :
    ∀ (fuel n : ℕ) (ds : List Char), (∀ c ∈ ds, c.isDigit = true) →
      ∀ c ∈ Nat.toDigitsCore 10 fuel n ds, c.isDigit = true := by
  intro fuel
  induction fuel with
  | zero => intro n ds h c hc; exact h c (by simpa [Nat.toDigitsCore] using hc)
  | succ fuel ih =>
    intro n ds h c hc
    have hcons : ∀ c ∈ Nat.digitChar (n % 10) :: ds, c.isDigit = true := by
      intro c hc
      rcases List.mem_cons.mp hc with h1 | h1
      · rw [h1]; exact digitChar_isDigit _ (Nat.mod_lt _ (by norm_num))
      · exact h c h1
    simp only [Nat.toDigitsCore] at hc
    split at hc
    · exact hcons c hc
    · exact ih _ _ hcons c hc

theorem toDigitsCore_ne_nil :
    ∀ (fuel n : ℕ) (ds : List Char), ds ≠ [] → Nat.toDigitsCore 10 fuel n ds ≠ [] := by
  intro fuel
  induction fuel with
  | zero => intro n ds h; simpa [Nat.toDigitsCore] using h
  | succ fuel ih =>
    intro n ds _
    simp only [Nat.toDigitsCore]
    split
    · simp
    · exact ih _ _ (by simp)

theorem fmtNat_isDigit (n : ℕ) : ∀ c ∈ fmtNat n, c.isDigit = true :=
  toDigitsCore_isDigit _ _ [] (by simp)

theorem fmtNat_ne_nil (n : ℕ) : fmtNat n ≠ [] := by
  simp only [fmtNat, Nat.toDigits, Nat.toDigitsCore]
  split
  · simp
  · exact toDigitsCore_ne_nil _ _ _ (by simp)

theorem frac6_length (n : ℕ) : (frac6 n).length = 6 := by simp [frac6]

theorem frac6_isDigit (n : ℕ) : ∀ c ∈ frac6 n, c.isDigit = true := by
  intro c hc
  simp only [frac6, List.map_cons, List.map_nil, List.mem_cons, List.mem_singleton,
    List.not_mem_nil, or_false] at hc
  rcases hc with h | h | h | h | h | h <;> rw [h] <;>
    exact digitChar_isDigit _ (Nat.mod_lt _ (by norm_num))

theorem fmtD_numChar (n : ℤ) : ∀ c ∈ fmtD n, IsNumChar c := by
  intro c hc
  unfold fmtD at hc
  split at hc
  · rcases List.mem_cons.mp hc with h | h
    · exact Or.inl h
    · exact Or.inr (Or.inr (fmtNat_isDigit _ c h))
  · exact Or.inr (Or.inr (fmtNat_isDigit _ c hc))

theorem fmtF_numChar (x : ℚ) : ∀ c ∈ fmtF x, IsNumChar c := by
  intro c hc
  simp only [fmtF, List.mem_append, List.mem_cons] at hc
  rcases hc with (h | h) | h | h
  · split at h
    · exact Or.inl (by simpa using h)
    · simp at h
  · exact Or.inr (Or.inr (fmtNat_isDigit _ c h))
  · exact Or.inr (Or.inl h)
  · exact Or.inr (Or.inr (frac6_isDigit _ c h))

theorem newline_not_numChar : ¬ IsNumChar '\n' := by
  unfold IsNumChar; decide

theorem tab_not_numChar : ¬ IsNumChar '\t' := by
  unfold IsNumChar; decide

theorem count_newline_fmtF (x : ℚ) : (fmtF x).count '\n' = 0 :=
  List.count_eq_zero.mpr fun h => newline_not_numChar (fmtF_numChar x _ h)

theorem count_newline_fmtD (n : ℤ) : (fmtD n).count '\n' = 0 :=
  List.count_eq_zero.mpr fun h => newline_not_numChar (fmtD_numChar n _ h)

theorem render_vertexCall (x y z : ℚ) :
    render (vertexCall (x, y, z)) =
      '\t' :: fmtF x ++ '\t' :: fmtF y ++ '\t' :: fmtF z ++ ['\n'] := by
  simp [render, vertexCall, formatChars]

theorem render_headerCall (Q : ℤ) :
    render (headerCall Q) = '\t' :: ' ' :: ' ' :: ' ' :: ' ' :: ' ' :: fmtD Q ++ ['\n'] := by
  simp [render, headerCall, formatChars]

theorem lineCount_vertexCall (v : Vertex) : lineCount (render (vertexCall v)) = 1 := by
  obtain ⟨x, y, z⟩ := v
  rw [render_vertexCall]
  simp [lineCount, List.count_cons, count_newline_fmtF]

theorem lineCount_headerCall (Q : ℤ) : lineCount (render (headerCall Q)) = 1 := by
  rw [render_headerCall]
  simp [lineCount, List.count_cons, count_newline_fmtD]

theorem lineCount_vertexCalls (l : List Vertex) :
    lineCount (fileText (l.map vertexCall)) = l.length := by
  induction l with
  | nil => rfl
  | cons v l ih =>
    have hv := lineCount_vertexCall v
    simp only [lineCount, fileText] at ih hv ⊢
    simp only [List.map_cons, List.flatten_cons, List.count_append, ih, hv, List.length_cons]
    omega

theorem lineCount_document (Q : ℤ) (l : List Vertex) :
    lineCount (fileText (headerCall Q :: l.map vertexCall)) = 1 + l.length := by
  have hh := lineCount_headerCall Q
  have hl := lineCount_vertexCalls l
  simp only [lineCount, fileText] at hh hl ⊢
  simp only [List.map_cons, List.flatten_cons, List.count_append, hh, hl]


theorem toNat_cast_int {Q : ℤ} (hQ : 1 ≤ Q) : ((Q.toNat : ℕ) : ℤ) = Q :=
  Int.toNat_of_nonneg (by omega)

/-! ## Grid values on the face planes -/

theorem asc_top {Q : ℤ} {L : ℚ} (hQ : 1 ≤ Q) : asc Q L Q.toNat = L / 2 := by
  have h := step_mul (L := L) hQ
  simp only [asc, nthValue]
  linarith

theorem asc_plane_iff {Q : ℤ} {L : ℚ} (hQ : 1 ≤ Q) (hL : 0 < L) (a : ℕ) :
    (asc Q L a = L / 2 ∨ asc Q L a = -(L / 2)) ↔ (a = 0 ∨ a = Q.toNat) := by
  constructor
  · rintro (h | h)
    · exact Or.inr (asc_injOn hQ hL (h.trans (asc_top hQ).symm))
    · exact Or.inl (asc_injOn hQ hL (h.trans (asc_zero Q L).symm))
  · rintro (h | h)
    · exact Or.inr (by rw [h, asc_zero])
    · exact Or.inl (by rw [h, asc_top hQ])

theorem planeCount_grid {Q : ℤ} {L : ℚ} (hQ : 1 ≤ Q) (hL : 0 < L) (a b : ℕ) (c : ℚ)
    (hc : c = L / 2 ∨ c = -(L / 2)) :
    planeCount L (asc Q L a, asc Q L b, c) =
        1 + (if a = 0 ∨ a = Q.toNat then 1 else 0) + (if b = 0 ∨ b = Q.toNat then 1 else 0) ∧
      planeCount L (asc Q L a, c, asc Q L b) =
        1 + (if a = 0 ∨ a = Q.toNat then 1 else 0) + (if b = 0 ∨ b = Q.toNat then 1 else 0) ∧
      planeCount L (c, asc Q L a, asc Q L b) =
        1 + (if a = 0 ∨ a = Q.toNat then 1 else 0) + (if b = 0 ∨ b = Q.toNat then 1 else 0) := by
  simp only [planeCount, asc_plane_iff hQ hL, hc, if_true]
  refine ⟨by ring, by ring, trivial⟩

theorem ref_bounds {Q : ℤ} {L : ℚ} (hQ : 1 ≤ Q) (hL : 0 < L) (v : Vertex)
    (hv : v ∈ refVertices Q L) :
    (-(L / 2) ≤ v.1 ∧ v.1 ≤ L / 2) ∧ (-(L / 2) ≤ v.2.1 ∧ v.2.1 ≤ L / 2) ∧
      (-(L / 2) ≤ v.2.2 ∧ v.2.2 ≤ L / 2) := by
  obtain ⟨a, b, ha, hb, h⟩ := (mem_refVertices Q L v).mp hv
  have ha1 := asc_ge hQ hL a
  have ha2 := asc_le hQ hL ha
  have ha3 := desc_ge hQ hL ha
  have ha4 := desc_le hQ hL ha
  have hb1 := asc_ge hQ hL b
  have hb2 := asc_le hQ hL hb
  have hb3 := desc_ge hQ hL hb
  have hb4 := desc_le hQ hL hb
  rcases h with h | h | h | h | h | h <;> subst h <;>
    refine ⟨⟨?_, ?_⟩, ⟨?_, ?_⟩, ⟨?_, ?_⟩⟩ <;>
    first | assumption | (simp only []; linarith)

/-- Every reference vertex is a pair of grid values on a plane `±L/2`. -/
theorem ref_shape {Q : ℤ} {L : ℚ} (hQ : 1 ≤ Q) (v : Vertex) (hv : v ∈ refVertices Q L) :
    ∃ a b, a ≤ Q.toNat ∧ b ≤ Q.toNat ∧
      (v = (asc Q L a, asc Q L b, L / 2) ∨ v = (asc Q L a, asc Q L b, -(L / 2)) ∨
       v = (asc Q L a, L / 2, asc Q L b) ∨ v = (asc Q L a, -(L / 2), asc Q L b) ∨
       v = (L / 2, asc Q L a, asc Q L b) ∨ v = (-(L / 2), asc Q L a, asc Q L b)) := by
  obtain ⟨a, b, ha, hb, h⟩ := (mem_refVertices Q L v).mp hv
  have da := desc_eq_asc (L := L) hQ ha
  have db := desc_eq_asc (L := L) hQ hb
  have sa : Q.toNat - a ≤ Q.toNat := Nat.sub_le _ _
  have sb : Q.toNat - b ≤ Q.toNat := Nat.sub_le _ _
  rcases h with h | h | h | h | h | h
  · exact ⟨Q.toNat - b, a, sb, ha, Or.inl (by rw [h, db])⟩
  · exact ⟨Q.toNat - b, Q.toNat - a, sb, sa, Or.inr (Or.inr (Or.inl (by rw [h, db, da])))⟩
  · exact ⟨b, Q.toNat - a, hb, sa,
      Or.inr (Or.inr (Or.inr (Or.inr (Or.inl (by rw [h, da])))))⟩
  · exact ⟨b, Q.toNat - a, hb, sa, Or.inr (Or.inr (Or.inr (Or.inl (by rw [h, da]))))⟩
  · exact ⟨Q.toNat - b, Q.toNat - a, sb, sa,
      Or.inr (Or.inr (Or.inr (Or.inr (Or.inr (by rw [h, db, da])))))⟩
  · exact ⟨Q.toNat - b, Q.toNat - a, sb, sa, Or.inr (Or.inl (by rw [h, db, da]))⟩

/-! ## A face block covers the grid once -/

theorem trav_inj {Q : ℤ} {L : ℚ} (hQ : 1 ≤ Q) (hL : 0 < L) {u : ℕ → ℚ}
    (hu : u = asc Q L ∨ u = desc Q L) {a c : ℕ} (ha : a ≤ Q.toNat) (hc : c ≤ Q.toNat)
    (h : u a = u c) : a = c := by
  rcases hu with rfl | rfl
  · exact asc_injOn hQ hL h
  · rw [desc_eq_asc hQ ha, desc_eq_asc hQ hc] at h
    have := asc_injOn hQ hL h
    omega

theorem trav_grid {Q : ℤ} {L : ℚ} (hQ : 1 ≤ Q) {u : ℕ → ℚ}
    (hu : u = asc Q L ∨ u = desc Q L) {a : ℕ} (ha : a ≤ Q.toNat) :
    ∃ c, c ≤ Q.toNat ∧ u a = asc Q L c := by
  rcases hu with rfl | rfl
  · exact ⟨a, ha, rfl⟩
  · exact ⟨Q.toNat - a, Nat.sub_le _ _, desc_eq_asc hQ ha⟩

theorem trav_surj {Q : ℤ} {L : ℚ} (hQ : 1 ≤ Q) {u : ℕ → ℚ}
    (hu : u = asc Q L ∨ u = desc Q L) {a : ℕ} (ha : a ≤ Q.toNat) :
    ∃ c, c ≤ Q.toNat ∧ u c = asc Q L a := by
  rcases hu with rfl | rfl
  · exact ⟨a, ha, rfl⟩
  · refine ⟨Q.toNat - a, Nat.sub_le _ _, ?_⟩
    rw [desc_eq_asc hQ (Nat.sub_le _ _), Nat.sub_sub_self ha]

theorem count_eq_count_decEq {α : Type} [DecidableEq α] [inst : BEq α] [LawfulBEq α]
    (x : α) (l : List α) :
    @List.count α inst x l = @List.count α instBEqOfDecidableEq x l := by
  induction l with
  | nil => rfl
  | cons b l ih => simp only [List.count_cons, ih, beq_iff_eq]

theorem count_eq_one_of_nodup {α : Type} [DecidableEq α] [inst : BEq α] [LawfulBEq α]
    {x : α} {l : List α} (hd : l.Nodup) (hx : x ∈ l) : @List.count α inst x l = 1 := by
  rw [count_eq_count_decEq]; exact List.count_eq_one_of_mem hd hx

/-- A block whose vertices have the fixed component `c` and the free components
`(w b, u a)`, for traversals `u` (outer) and `w` (inner), lies in the plane `c` and covers
the grid, each grid pair once. -/
theorem block_covers_grid {Q : ℤ} {L : ℚ} (hQ : 1 ≤ Q) (hL : 0 < L) {u w : ℕ → ℚ}
    (hu : u = asc Q L ∨ u = desc Q L) (hw : w = asc Q L ∨ w = desc Q L)
    (F : ℕ → ℕ → Vertex) (fx : Vertex → ℚ) (fr : Vertex → ℚ × ℚ) (c : ℚ)
    (hfx : ∀ a b, fx (F a b) = c) (hfr : ∀ a b, fr (F a b) = (w b, u a)) :
    (∀ v ∈ block Q F, fx v = c) ∧
      (∀ v ∈ block Q F, ∃ a b, a ≤ Q.toNat ∧ b ≤ Q.toNat ∧
        fr v = (asc Q L a, asc Q L b)) ∧
      (∀ a b, a ≤ Q.toNat → b ≤ Q.toNat →
        ((block Q F).map fr).count (asc Q L a, asc Q L b) = 1) := by
  refine ⟨?_, ?_, ?_⟩
  · intro v hv
    obtain ⟨a, b, -, -, rfl⟩ := (mem_block Q F v).mp hv
    exact hfx a b
  · intro v hv
    obtain ⟨a, b, ha, hb, rfl⟩ := (mem_block Q F v).mp hv
    obtain ⟨a', ha', hua⟩ := trav_grid hQ hu ha
    obtain ⟨b', hb', hwb⟩ := trav_grid hQ hw hb
    exact ⟨b', a', hb', ha', by rw [hfr, hwb, hua]⟩
  · intro a b ha hb
    have hmap : (block Q F).map fr =
        (List.range (Q.toNat + 1)).flatMap fun a =>
          (List.range (Q.toNat + 1)).map fun b => (w b, u a) := by
      simp only [block, List.map_flatMap, List.map_map, Function.comp_def, hfr]
    rw [hmap]
    apply count_eq_one_of_nodup
    · apply nodup_grid
      intro a1 b1 a2 b2 h1 h2 h3 h4 h
      simp only [Prod.mk.injEq] at h
      exact ⟨trav_inj hQ hL hu h1 h3 h.2, trav_inj hQ hL hw h2 h4 h.1⟩
    · obtain ⟨a', ha', hwa⟩ := trav_surj hQ hw ha
      obtain ⟨b', hb', hub⟩ := trav_surj hQ hu hb
      exact (mem_grid _ _ _).mpr ⟨b', a', hb', ha', by rw [hwa, hub]⟩

/-! ## The claims -/

/-- C1: for every integer `Q ≥ 1` and every `L > 0`, with exact loop arithmetic
(`rnd = id`) and fuel for the `Q + 2` tests of each loop, `mainBody` returns and the vertex
sequence it has emitted is `refVertices Q L`: the concatenation, face 1 to face 6, of the
six blocks of the traversal table, each block in nested order (outer index, then the full
inner loop) with the values computed by index, `start + n * step` for `n = 0..Q`. -/
theorem main_emits_reference_sequence (Q : ℤ) (L : ℚ) (hQ : 1 ≤ Q) (hL : 0 < L) (fuel : ℕ)
    (hfuel : Q.toNat + 2 ≤ fuel) (i0 j0 k0 : ℚ) :
    ∃ t, mainBody id Q L fuel ⟨i0, j0, k0, []⟩ = some t ∧
      vertices t.out = refVertices Q L := by
  obtain ⟨t, ht, -, -, -, -, hv⟩ := mainBody_id hQ hL hfuel i0 j0 k0
  exact ⟨t, ht, hv⟩

theorem main_emits_reference_sequence_witness :
    (1 : ℤ) ≤ 4 ∧ (0 : ℚ) < 30 ∧ (4 : ℤ).toNat + 2 ≤ 6 ∧
      ∃ t, mainBody id 4 30 6 ⟨0, 0, 0, []⟩ = some t ∧ vertices t.out = refVertices 4 30 :=
  ⟨by decide, by norm_num, by decide,
    main_emits_reference_sequence 4 30 (by decide) (by norm_num) 6 (by decide) 0 0 0⟩

/-- C2: for every integer `Q ≥ 1` and every `L > 0`, with exact loop arithmetic, `mainBody`
returns having written the single header call followed by vertex calls only, `6 * (Q+1)^2`
of them, and the text of the file has `1 + 6 * (Q+1)^2` line terminators. -/
theorem main_line_count (Q : ℤ) (L : ℚ) (hQ : 1 ≤ Q) (hL : 0 < L) (fuel : ℕ)
    (hfuel : Q.toNat + 2 ≤ fuel) (i0 j0 k0 : ℚ) :
    ∃ t, mainBody id Q L fuel ⟨i0, j0, k0, []⟩ = some t ∧
      t.out = headerCall Q :: (vertices t.out).map vertexCall ∧
      ((vertices t.out).length : ℤ) = 6 * (Q + 1) ^ 2 ∧
      (lineCount (fileText t.out) : ℤ) = 1 + 6 * (Q + 1) ^ 2 := by
  obtain ⟨t, ht, -, -, -, ho, hv⟩ := mainBody_id hQ hL hfuel i0 j0 k0
  have hlen : ((refVertices Q L).length : ℤ) = 6 * (Q + 1) ^ 2 := by
    rw [length_refVertices]; push_cast; rw [toNat_cast_int hQ]
  refine ⟨t, ht, by rw [hv, ho], by rw [hv, hlen], ?_⟩
  rw [ho, lineCount_document]; push_cast; rw [hlen]

theorem main_line_count_witness :
    (1 : ℤ) ≤ 4 ∧ (0 : ℚ) < 30 ∧ (4 : ℤ).toNat + 2 ≤ 6 ∧
      ∃ t, mainBody id 4 30 6 ⟨0, 0, 0, []⟩ = some t ∧
        (vertices t.out).length = 150 ∧ lineCount (fileText t.out) = 151 := by
  obtain ⟨t, ht, -, hv, hl⟩ :=
    main_line_count 4 30 (by decide) (by norm_num) 6 (by decide) 0 0 0
  refine ⟨by decide, by norm_num, by decide, t, ht, ?_, ?_⟩
  · have : ((vertices t.out).length : ℤ) = 150 := by rw [hv]; norm_num
    exact_mod_cast this
  · have : (lineCount (fileText t.out) : ℤ) = 151 := by rw [hl]; norm_num
    exact_mod_cast this



/-- C3: for every integer `Q ≥ 1` and every `L > 0`, with exact loop arithmetic, each of the
six blocks of `(Q+1)²` consecutive emitted vertices is a full grid: the fixed component of
the face has the same value (`+L/2` on faces 1 to 3, `-L/2` on faces 4 to 6) in all its
vertices, the other two components of each vertex form a pair
`(-L/2 + a * L/Q, -L/2 + b * L/Q)` with `0 ≤ a, b ≤ Q`, and every such pair occurs exactly
once in the block. -/
theorem face_blocks_are_full_grids (Q : ℤ) (L : ℚ) (hQ : 1 ≤ Q) (hL : 0 < L) (fuel : ℕ)
    (hfuel : Q.toNat + 2 ≤ fuel) (i0 j0 k0 : ℚ) :
    ∃ t, mainBody id Q L fuel ⟨i0, j0, k0, []⟩ = some t ∧
      ∀ f, f < 6 →
        (faceBlock Q f (vertices t.out)).length = (Q.toNat + 1) ^ 2 ∧
        (∀ v ∈ faceBlock Q f (vertices t.out), fixedComp f v = facePlane L f) ∧
        (∀ v ∈ faceBlock Q f (vertices t.out), ∃ a b, a ≤ Q.toNat ∧ b ≤ Q.toNat ∧
          freeComps f v = (-(L / 2) + a * (L / Q), -(L / 2) + b * (L / Q))) ∧
        (∀ a b, a ≤ Q.toNat → b ≤ Q.toNat →
          ((faceBlock Q f (vertices t.out)).map (freeComps f)).count
            (-(L / 2) + a * (L / Q), -(L / 2) + b * (L / Q)) = 1) := by
  obtain ⟨t, ht, -, -, -, -, hv⟩ := mainBody_id hQ hL hfuel i0 j0 k0
  refine ⟨t, ht, fun f hf => ?_⟩
  rw [hv]
  have A : asc Q L = asc Q L ∨ asc Q L = desc Q L := Or.inl rfl
  have D : desc Q L = asc Q L ∨ desc Q L = desc Q L := Or.inr rfl
  interval_cases f
  · rw [faceBlock_ref Q L 0 _ rfl]
    exact ⟨length_block _ _,
      block_covers_grid hQ hL A D _ _ _ _ (fun _ _ => rfl) (fun _ _ => rfl)⟩
  · rw [faceBlock_ref Q L 1 _ rfl]
    exact ⟨length_block _ _,
      block_covers_grid hQ hL D D _ _ _ _ (fun _ _ => rfl) (fun _ _ => rfl)⟩
  · rw [faceBlock_ref Q L 2 _ rfl]
    exact ⟨length_block _ _,
      block_covers_grid hQ hL D A _ _ _ _ (fun _ _ => rfl) (fun _ _ => rfl)⟩
  · rw [faceBlock_ref Q L 3 _ rfl]
    exact ⟨length_block _ _,
      block_covers_grid hQ hL D A _ _ _ _ (fun _ _ => rfl) (fun _ _ => rfl)⟩
  · rw [faceBlock_ref Q L 4 _ rfl]
    exact ⟨length_block _ _,
      block_covers_grid hQ hL D D _ _ _ _ (fun _ _ => rfl) (fun _ _ => rfl)⟩
  · rw [faceBlock_ref Q L 5 _ rfl]
    exact ⟨length_block _ _,
      block_covers_grid hQ hL D D _ _ _ _ (fun _ _ => rfl) (fun _ _ => rfl)⟩


theorem face_blocks_are_full_grids_witness :
    (1 : ℤ) ≤ 4 ∧ (0 : ℚ) < 30 ∧ (4 : ℤ).toNat + 2 ≤ 6 ∧
      ∃ t, mainBody id 4 30 6 ⟨0, 0, 0, []⟩ = some t ∧
        ∀ f, f < 6 →
          (faceBlock 4 f (vertices t.out)).length = ((4 : ℤ).toNat + 1) ^ 2 ∧
          (∀ v ∈ faceBlock 4 f (vertices t.out), fixedComp f v = facePlane 30 f) ∧
          (∀ v ∈ faceBlock 4 f (vertices t.out), ∃ a b, a ≤ (4 : ℤ).toNat ∧ b ≤ (4 : ℤ).toNat ∧
            freeComps f v = (-(30 / 2 : ℚ) + a * (30 / ((4 : ℤ) : ℚ)), -(30 / 2) + b * (30 / ((4 : ℤ) : ℚ)))) ∧
          (∀ a b, a ≤ (4 : ℤ).toNat → b ≤ (4 : ℤ).toNat →
            ((faceBlock 4 f (vertices t.out)).map (freeComps f)).count
              (-(30 / 2 : ℚ) + a * (30 / ((4 : ℤ) : ℚ)), -(30 / 2) + b * (30 / ((4 : ℤ) : ℚ))) = 1) :=
  ⟨by decide, by norm_num, by decide,
    face_blocks_are_full_grids 4 30 (by decide) (by norm_num) 6 (by decide) 0 0 0⟩

/-- C4: for the hard-coded `Q = 4`, `L = 30.0`, under any rounding to binary32 and with fuel
for six tests per loop, `main` returns; the first vertex it emitted, which is the first of
the face 1 block, is `(15, -15, 15)`, and the 25th, which is the last of the face 1 block,
is `(-15, 15, 15)`. -/
theorem main_first_and_25th_vertex (rnd : ℚ → ℚ) (hr : RoundsToBinary32 rnd) (fuel : ℕ)
    (hfuel : 6 ≤ fuel) (i0 j0 k0 : ℚ) :
    ∃ t, main rnd fuel i0 j0 k0 = some t ∧
      (vertices t.out)[0]? = some ((15, -15, 15) : Vertex) ∧
      (vertices t.out)[24]? = some ((-15, 15, 15) : Vertex) ∧
      (faceBlock 4 0 (vertices t.out)).head? = some ((15, -15, 15) : Vertex) ∧
      (faceBlock 4 0 (vertices t.out)).getLast? = some ((-15, 15, 15) : Vertex) := by
  obtain ⟨t, ht, -, hv⟩ := main_spec hr hfuel i0 j0 k0
  refine ⟨t, ht, ?_, ?_, ?_, ?_⟩ <;> rw [hv] <;> decide!

theorem main_first_and_25th_vertex_witness :
    RoundsToBinary32 id ∧ 6 ≤ 6 ∧
      ∃ t, main id 6 0 0 0 = some t ∧
        (vertices t.out)[0]? = some ((15, -15, 15) : Vertex) ∧
        (vertices t.out)[24]? = some ((-15, 15, 15) : Vertex) ∧
        (faceBlock 4 0 (vertices t.out)).head? = some ((15, -15, 15) : Vertex) ∧
        (faceBlock 4 0 (vertices t.out)).getLast? = some ((-15, 15, 15) : Vertex) :=
  ⟨roundsToBinary32_id, le_refl 6,
    main_first_and_25th_vertex id roundsToBinary32_id 6 (le_refl 6) 0 0 0⟩

/-- C5: for the hard-coded `Q = 4`, `L = 30.0`, under any rounding to binary32 and with fuel
for six tests per loop, `main` returns having emitted 150 vertices; the last 25 (vertices
126 to 150) are the face 6 block, all with `z = -15`, and the first of them (vertex 126) is
`(15, 15, -15)`.  Nothing follows them: the stream holds 151 calls, the header and the
150 vertices. -/
theorem main_last_block_is_face6 (rnd : ℚ → ℚ) (hr : RoundsToBinary32 rnd) (fuel : ℕ)
    (hfuel : 6 ≤ fuel) (i0 j0 k0 : ℚ) :
    ∃ t, main rnd fuel i0 j0 k0 = some t ∧
      (vertices t.out).length = 150 ∧ t.out.length = 151 ∧
      (vertices t.out).drop 125 = faceBlock 4 5 (vertices t.out) ∧
      (vertices t.out).drop 125 =
        block 4 (fun a b => (desc 4 30 b, desc 4 30 a, -(30 / 2))) ∧
      ((vertices t.out).drop 125).length = 25 ∧
      (∀ v ∈ (vertices t.out).drop 125, v.2.2 = -15) ∧
      (vertices t.out)[125]? = some ((15, 15, -15) : Vertex) := by
  obtain ⟨t, ht, ho, hv⟩ := main_spec hr hfuel i0 j0 k0
  refine ⟨t, ht, ?_, ?_, ?_, ?_, ?_, ?_, ?_⟩
  · rw [hv]; decide!
  · rw [ho]; decide!
  · rw [hv]; decide!
  · rw [hv]; decide!
  · rw [hv]; decide!
  · rw [hv]; decide!
  · rw [hv]; decide!

theorem main_last_block_is_face6_witness :
    RoundsToBinary32 id ∧ 6 ≤ 6 ∧
      ∃ t, main id 6 0 0 0 = some t ∧
        (vertices t.out).length = 150 ∧ t.out.length = 151 ∧
        (vertices t.out).drop 125 = faceBlock 4 5 (vertices t.out) ∧
        (vertices t.out).drop 125 =
          block 4 (fun a b => (desc 4 30 b, desc 4 30 a, -(30 / 2))) ∧
        ((vertices t.out).drop 125).length = 25 ∧
        (∀ v ∈ (vertices t.out).drop 125, v.2.2 = -15) ∧
        (vertices t.out)[125]? = some ((15, 15, -15) : Vertex) :=
  ⟨roundsToBinary32_id, le_refl 6,
    main_last_block_is_face6 id roundsToBinary32_id 6 (le_refl 6) 0 0 0⟩


/-- C6: for every integer `Q ≥ 1` and every `L > 0`, with exact loop arithmetic, `mainBody`
returns and every vertex it has emitted has at least one coordinate equal to `+L/2` or
`-L/2`. -/
theorem every_vertex_on_a_face_plane (Q : ℤ) (L : ℚ) (hQ : 1 ≤ Q) (hL : 0 < L) (fuel : ℕ)
    (hfuel : Q.toNat + 2 ≤ fuel) (i0 j0 k0 : ℚ) :
    ∃ t, mainBody id Q L fuel ⟨i0, j0, k0, []⟩ = some t ∧
      ∀ v ∈ vertices t.out,
        v.1 = L / 2 ∨ v.1 = -(L / 2) ∨ v.2.1 = L / 2 ∨ v.2.1 = -(L / 2) ∨
          v.2.2 = L / 2 ∨ v.2.2 = -(L / 2) := by
  obtain ⟨t, ht, -, -, -, -, hv⟩ := mainBody_id hQ hL hfuel i0 j0 k0
  refine ⟨t, ht, fun v hmem => ?_⟩
  rw [hv] at hmem
  obtain ⟨a, b, -, -, h⟩ := (mem_refVertices Q L v).mp hmem
  rcases h with h | h | h | h | h | h <;> subst h <;> simp

theorem every_vertex_on_a_face_plane_witness :
    (1 : ℤ) ≤ 4 ∧ (0 : ℚ) < 30 ∧ (4 : ℤ).toNat + 2 ≤ 6 ∧
      ∃ t, mainBody id 4 30 6 ⟨0, 0, 0, []⟩ = some t ∧
        ∀ v ∈ vertices t.out,
          v.1 = 30 / 2 ∨ v.1 = -(30 / 2) ∨ v.2.1 = 30 / 2 ∨ v.2.1 = -(30 / 2) ∨
            v.2.2 = 30 / 2 ∨ v.2.2 = -(30 / 2) :=
  ⟨by decide, by norm_num, by decide,
    every_vertex_on_a_face_plane 4 30 (by decide) (by norm_num) 6 (by decide) 0 0 0⟩

/-- C7, the claim as stated fails: for `Q = 4`, `L = 30` the first vertex emitted is the
corner `(15, -15, 15)`, all three of whose components equal `+L/2` or `-L/2`; so it is not
the case that every emitted triple has exactly one such component. -/
theorem corner_has_three_plane_components :
    ∃ t, mainBody id 4 30 6 ⟨0, 0, 0, []⟩ = some t ∧
      (vertices t.out)[0]? = some ((15, -15, 15) : Vertex) ∧
      planeCount 30 ((15, -15, 15) : Vertex) = 3 ∧
      ¬ ∀ v ∈ vertices t.out, planeCount 30 v = 1 := by
  obtain ⟨t, ht, -, -, -, -, hv⟩ :=
    @mainBody_id 4 30 (by decide) (by norm_num) 6 (by decide) 0 0 0
  refine ⟨t, ht, ?_, ?_, ?_⟩
  · rw [hv]; decide!
  · decide!
  · rw [hv]; decide!

/-- C7, amended: for every integer `Q ≥ 1` and every `L > 0`, with exact loop arithmetic,
every emitted triple has one component equal to `+L/2` or `-L/2` (its face plane), the
other two being grid values `-L/2 + a * L/Q` and `-L/2 + b * L/Q` with `0 ≤ a, b ≤ Q`; the
number of its components equal to `±L/2` is one plus the number of `a`, `b` that are `0`
or `Q`, hence exactly one precisely for the vertices interior to a face. -/
theorem vertex_plane_components (Q : ℤ) (L : ℚ) (hQ : 1 ≤ Q) (hL : 0 < L) (fuel : ℕ)
    (hfuel : Q.toNat + 2 ≤ fuel) (i0 j0 k0 : ℚ) :
    ∃ t, mainBody id Q L fuel ⟨i0, j0, k0, []⟩ = some t ∧
      ∀ v ∈ vertices t.out, ∃ a b, a ≤ Q.toNat ∧ b ≤ Q.toNat ∧
        (v = (asc Q L a, asc Q L b, L / 2) ∨ v = (asc Q L a, asc Q L b, -(L / 2)) ∨
         v = (asc Q L a, L / 2, asc Q L b) ∨ v = (asc Q L a, -(L / 2), asc Q L b) ∨
         v = (L / 2, asc Q L a, asc Q L b) ∨ v = (-(L / 2), asc Q L a, asc Q L b)) ∧
        planeCount L v =
          1 + (if a = 0 ∨ a = Q.toNat then 1 else 0) + (if b = 0 ∨ b = Q.toNat then 1 else 0) := by
  obtain ⟨t, ht, -, -, -, -, hv⟩ := mainBody_id hQ hL hfuel i0 j0 k0
  refine ⟨t, ht, fun v hmem => ?_⟩
  rw [hv] at hmem
  obtain ⟨a, b, ha, hb, h⟩ := ref_shape hQ v hmem
  refine ⟨a, b, ha, hb, h, ?_⟩
  have hp := planeCount_grid hQ hL a b (L / 2) (Or.inl rfl)
  have hn := planeCount_grid hQ hL a b (-(L / 2)) (Or.inr rfl)
  rcases h with h | h | h | h | h | h <;> subst h
  · exact hp.1
  · exact hn.1
  · exact hp.2.1
  · exact hn.2.1
  · exact hp.2.2
  · exact hn.2.2

theorem vertex_plane_components_witness :
    (1 : ℤ) ≤ 4 ∧ (0 : ℚ) < 30 ∧ (4 : ℤ).toNat + 2 ≤ 6 ∧
      ∃ t, mainBody id 4 30 6 ⟨0, 0, 0, []⟩ = some t ∧
        ∀ v ∈ vertices t.out, ∃ a b, a ≤ (4 : ℤ).toNat ∧ b ≤ (4 : ℤ).toNat ∧
          (v = (asc 4 30 a, asc 4 30 b, 30 / 2) ∨ v = (asc 4 30 a, asc 4 30 b, -(30 / 2)) ∨
           v = (asc 4 30 a, 30 / 2, asc 4 30 b) ∨ v = (asc 4 30 a, -(30 / 2), asc 4 30 b) ∨
           v = (30 / 2, asc 4 30 a, asc 4 30 b) ∨ v = (-(30 / 2), asc 4 30 a, asc 4 30 b)) ∧
          planeCount 30 v =
            1 + (if a = 0 ∨ a = (4 : ℤ).toNat then 1 else 0) +
              (if b = 0 ∨ b = (4 : ℤ).toNat then 1 else 0) :=
  ⟨by decide, by norm_num, by decide,
    vertex_plane_components 4 30 (by decide) (by norm_num) 6 (by decide) 0 0 0⟩

/-- C8: for every integer `Q ≥ 1` and every `L > 0`, with exact loop arithmetic, `mainBody`
returns and every coordinate of every vertex it has emitted lies in `[-L/2, L/2]`.  The
values a loop variable holds at loop exit, `-L/2 - L/Q` for a descending loop (the final
values of `i` and `j`) and `L/2 + L/Q` for an ascending one, are never emitted. -/
theorem coordinates_in_closed_range (Q : ℤ) (L : ℚ) (hQ : 1 ≤ Q) (hL : 0 < L) (fuel : ℕ)
    (hfuel : Q.toNat + 2 ≤ fuel) (i0 j0 k0 : ℚ) :
    ∃ t, mainBody id Q L fuel ⟨i0, j0, k0, []⟩ = some t ∧
      (∀ v ∈ vertices t.out,
        (-(L / 2) ≤ v.1 ∧ v.1 ≤ L / 2) ∧ (-(L / 2) ≤ v.2.1 ∧ v.2.1 ≤ L / 2) ∧
          (-(L / 2) ≤ v.2.2 ∧ v.2.2 ≤ L / 2)) ∧
      t.i = -(L / 2) - L / Q ∧ t.j = -(L / 2) - L / Q ∧
      (∀ v ∈ vertices t.out, ∀ c ∈ [v.1, v.2.1, v.2.2],
        c ≠ -(L / 2) - L / Q ∧ c ≠ L / 2 + L / Q) := by
  obtain ⟨t, ht, hi, hj, -, -, hv⟩ := mainBody_id hQ hL hfuel i0 j0 k0
  have hd := step_pos hQ hL
  have hexit : desc Q L (Q.toNat + 1) = -(L / 2) - L / Q := by
    have h := step_mul (L := L) hQ
    simp only [desc, nthValue]; push_cast; linarith
  refine ⟨t, ht, fun v hmem => ref_bounds hQ hL v (hv ▸ hmem), hi.trans hexit,
    hj.trans hexit, fun v hmem c hc => ?_⟩
  obtain ⟨⟨h1, h2⟩, ⟨h3, h4⟩, h5, h6⟩ := ref_bounds hQ hL v (hv ▸ hmem)
  simp only [List.mem_cons, List.mem_singleton, List.not_mem_nil, or_false] at hc
  rcases hc with h | h | h <;> subst h <;> constructor <;> intro h <;> linarith

theorem coordinates_in_closed_range_witness :
    (1 : ℤ) ≤ 4 ∧ (0 : ℚ) < 30 ∧ (4 : ℤ).toNat + 2 ≤ 6 ∧
      ∃ t, mainBody id 4 30 6 ⟨0, 0, 0, []⟩ = some t ∧
        (∀ v ∈ vertices t.out,
          (-(30 / 2) ≤ v.1 ∧ v.1 ≤ 30 / 2) ∧ (-(30 / 2) ≤ v.2.1 ∧ v.2.1 ≤ 30 / 2) ∧
            (-(30 / 2) ≤ v.2.2 ∧ v.2.2 ≤ 30 / 2)) ∧
        t.i = -(30 / 2) - 30 / ((4 : ℤ) : ℚ) ∧ t.j = -(30 / 2) - 30 / ((4 : ℤ) : ℚ) ∧
        (∀ v ∈ vertices t.out, ∀ c ∈ [v.1, v.2.1, v.2.2],
          c ≠ -(30 / 2) - 30 / ((4 : ℤ) : ℚ) ∧ c ≠ 30 / 2 + 30 / ((4 : ℤ) : ℚ)) :=
  ⟨by decide, by norm_num, by decide,
    coordinates_in_closed_range 4 30 (by decide) (by norm_num) 6 (by decide) 0 0 0⟩


/-- C9: for the hard-coded `Q = 4`, under any rounding to binary32 and with fuel for six
tests per loop, `main` returns and the first call on the stream is the header call; every
later call is a vertex call, so the header is written once, before every vertex line.  The
header text is a tab, five spaces, the decimal digits of `Q` and a newline: for `Q = 4`
the line `"\t     4\n"`, whose first character is the tab and whose only non-blank content
is `4`. -/
theorem header_line_first (rnd : ℚ → ℚ) (hr : RoundsToBinary32 rnd) (fuel : ℕ)
    (hfuel : 6 ≤ fuel) (i0 j0 k0 : ℚ) :
    ∃ t, main rnd fuel i0 j0 k0 = some t ∧
      t.out = headerCall 4 :: (vertices t.out).map vertexCall ∧
      fileText t.out = "\t     4\n".toList ++ fileText ((vertices t.out).map vertexCall) ∧
      (fileText t.out).head? = some '\t' ∧
      (∀ q : ℤ, render (headerCall q) = "\t     ".toList ++ fmtD q ++ "\n".toList) ∧
      fmtD 4 = "4".toList ∧
      (render (headerCall 4)).filter (fun c => !c.isWhitespace) = "4".toList := by
  obtain ⟨t, ht, ho, hv⟩ := main_spec hr hfuel i0 j0 k0
  have hh : render (headerCall 4) = "\t     4\n".toList := by decide
  refine ⟨t, ht, by rw [hv, ho], ?_, ?_, ?_, by decide, by decide⟩
  · rw [hv, ho]; simp only [fileText, List.map_cons, List.flatten_cons, hh]
  · rw [ho]; simp only [fileText, List.map_cons, List.flatten_cons, hh]; rfl
  · intro q; rw [render_headerCall]; rfl

theorem header_line_first_witness :
    RoundsToBinary32 id ∧ 6 ≤ 6 ∧
      ∃ t, main id 6 0 0 0 = some t ∧
        t.out = headerCall 4 :: (vertices t.out).map vertexCall ∧
        fileText t.out = "\t     4\n".toList ++ fileText ((vertices t.out).map vertexCall) ∧
        (fileText t.out).head? = some '\t' ∧
        (∀ q : ℤ, render (headerCall q) = "\t     ".toList ++ fmtD q ++ "\n".toList) ∧
        fmtD 4 = "4".toList ∧
        (render (headerCall 4)).filter (fun c => !c.isWhitespace) = "4".toList :=
  ⟨roundsToBinary32_id, le_refl 6, header_line_first id roundsToBinary32_id 6 (le_refl 6) 0 0 0⟩

/-! ## The loop table describes the six faces -/

theorem faces_eq_table (rnd : ℚ → ℚ) (Q : ℤ) (L : ℚ) (fuel : ℕ) :
    [face1 rnd Q L fuel, face2 rnd Q L fuel, face3 rnd Q L fuel, face4 rnd Q L fuel,
      face5 rnd Q L fuel, face6 rnd Q L fuel] = loopTable.map (faceOf rnd Q L fuel) := rfl

theorem get_set_same (v : Var) (x : ℚ) (s : State) : v.get (v.set x s) = x := by
  cases v <;> rfl

theorem get_set_ne {w v : Var} (h : w ≠ v) (x : ℚ) (s : State) :
    w.get (v.set x s) = w.get s := by
  cases w <;> cases v <;> first | rfl | exact absurd rfl h

theorem out_set (v : Var) (x : ℚ) (s : State) : (v.set x s).out = s.out := by
  cases v <;> rfl

theorem get_fprintf (v : Var) (s : State) (fmt : String) (args : List Arg) :
    v.get (fprintf s fmt args) = v.get s := by
  cases v <;> rfl

theorem state_ext {s t : State} (hv : ∀ w : Var, w.get s = w.get t) (ho : s.out = t.out) :
    s = t := by
  have hi := hv Var.i
  have hj := hv Var.j
  have hk := hv Var.k
  cases s; cases t
  simp only [Var.get] at hi hj hk
  simp only at ho
  subst hi hj hk ho
  rfl

/-! ## Counting the iterations of a loop -/

theorem loopIterations_count_aux (cond : State → Bool) (step : State → State)
    (body : State → Option State) (P : ℕ → State → Prop) (N : ℕ)
    (hstep : ∀ n t, n ≤ N → P n t →
      cond t = true ∧ ∃ u, body t = some u ∧ P (n + 1) (step u))
    (hexit : ∀ t, P (N + 1) t → cond t = false) :
    ∀ (r m fuel : ℕ) (s : State), m + r = N + 1 → P m s → r < fuel →
      loopIterations cond step body fuel s = some r := by
  intro r
  induction r with
  | zero =>
    intro m fuel s hm hP hfuel
    obtain ⟨f, rfl⟩ : ∃ f, fuel = f + 1 := ⟨fuel - 1, by omega⟩
    have hmN : m = N + 1 := by omega
    subst hmN
    simp [loopIterations, hexit s hP]
  | succ r ih =>
    intro m fuel s hm hP hfuel
    obtain ⟨f, rfl⟩ : ∃ f, fuel = f + 1 := ⟨fuel - 1, by omega⟩
    obtain ⟨hc, u, hu, hP1⟩ := hstep m s (by omega) hP
    have h := ih (m + 1) f (step u) (by omega) hP1 (by omega)
    simp [loopIterations, hc, hu, h]

/-- Counting follows the control flow of the loop: it returns exactly when the loop does. -/
theorem loopIterations_isSome (cond : State → Bool) (step : State → State)
    (body : State → Option State) :
    ∀ (fuel : ℕ) (s : State),
      (loopIterations cond step body fuel s).isSome = (forLoop cond step body fuel s).isSome := by
  intro fuel
  induction fuel with
  | zero => intro s; rfl
  | succ fuel ih =>
    intro s
    simp only [loopIterations, forLoop]
    cases cond s with
    | false => rfl
    | true =>
      cases body s with
      | none => rfl
      | some u => simpa using ih (step u)

/-- The counting rule, with the number of iterations: under the hypotheses of
`forLoop_count` the loop returns and its body has run `N + 1` times. -/
theorem loop_count (cond : State → Bool) (step : State → State)
    (body : State → Option State) (P : ℕ → State → Prop) (N fuel : ℕ) (s : State)
    (hstep : ∀ n t, n ≤ N → P n t →
      cond t = true ∧ ∃ u, body t = some u ∧ P (n + 1) (step u))
    (hexit : ∀ t, P (N + 1) t → cond t = false)
    (h0 : P 0 s) (hfuel : N + 2 ≤ fuel) :
    (∃ t, forLoop cond step body fuel s = some t ∧ P (N + 1) t) ∧
      loopIterations cond step body fuel s = some (N + 1) :=
  ⟨forLoop_count cond step body P N fuel s hstep hexit h0 hfuel,
    loopIterations_count_aux cond step body P N hstep hexit (N + 1) 0 fuel s (by omega) h0
      (by omega)⟩

/-! ## The loop headers under exact rounding -/

theorem first_eq_trav {rnd : ℚ → ℚ} {Q : ℤ} {L : ℚ} (hE : ExactOn rnd Q L) (d : Dir) :
    d.first rnd L = trav Q L d 0 := by
  obtain ⟨-, hh, -, -⟩ := hE
  cases d
  · simp [Dir.first, trav, hh, asc_zero]
  · simp [Dir.first, trav, hh, desc_zero]

theorem test_trav {rnd : ℚ → ℚ} {Q : ℤ} {L : ℚ} (hE : ExactOn rnd Q L) (hQ : 1 ≤ Q)
    (hL : 0 < L) (d : Dir) {n : ℕ} (hn : n ≤ Q.toNat) :
    d.test rnd L (trav Q L d n) = true := by
  obtain ⟨-, hh, -, -⟩ := hE
  cases d
  · simp [Dir.test, trav, hh, asc_le hQ hL hn]
  · simp [Dir.test, trav, hh, desc_ge hQ hL hn]

theorem test_trav_exit {rnd : ℚ → ℚ} {Q : ℤ} {L : ℚ} (hE : ExactOn rnd Q L) (hQ : 1 ≤ Q)
    (hL : 0 < L) (d : Dir) : d.test rnd L (trav Q L d (Q.toNat + 1)) = false := by
  obtain ⟨-, hh, -, -⟩ := hE
  cases d
  · simp [Dir.test, trav, hh, asc_exit hQ hL]
  · simp [Dir.test, trav, hh, desc_exit hQ hL]

theorem next_trav {rnd : ℚ → ℚ} {Q : ℤ} {L : ℚ} (hE : ExactOn rnd Q L) (d : Dir) {n : ℕ}
    (hn : n ≤ Q.toNat) : d.next rnd Q L (trav Q L d n) = trav Q L d (n + 1) := by
  obtain ⟨hq, -, hd, hg⟩ := hE
  cases d
  · simp only [Dir.next, trav, hq, hd]; rw [(hg n hn).2, asc_succ]
  · simp only [Dir.next, trav, hq, hd]; rw [(hg n hn).1, desc_succ]

/-! ## The twelve loops run `Q + 1` times -/

/-- A loop on `v` with header `d` and body `emitVertex` returns after `Q + 1` iterations,
leaving `v` one step past its bound and the other variables as they were. -/
theorem innerLoop_runs {rnd : ℚ → ℚ} {Q : ℤ} {L : ℚ} (hE : ExactOn rnd Q L) (hQ : 1 ≤ Q)
    (hL : 0 < L) {fuel : ℕ} (hfuel : Q.toNat + 2 ≤ fuel) (v : Var) (d : Dir) (s : State) :
    (∃ t, forLoop (loopCond rnd L v d) (loopStep rnd Q L v d) emitVertex fuel
        (loopInit rnd L v d s) = some t ∧
      (v.get t = trav Q L d (Q.toNat + 1) ∧ ∀ w, w ≠ v → w.get t = w.get s)) ∧
    loopIterations (loopCond rnd L v d) (loopStep rnd Q L v d) emitVertex fuel
      (loopInit rnd L v d s) = some (Q.toNat + 1) := by
  apply loop_count _ _ _ (fun n t => v.get t = trav Q L d n ∧ ∀ w, w ≠ v → w.get t = w.get s)
    Q.toNat fuel
  · rintro n t hn ⟨hv, hw⟩
    refine ⟨?_, _, rfl, ?_, ?_⟩
    · simp only [loopCond, hv]; exact test_trav hE hQ hL d hn
    · simp only [loopStep, get_set_same, get_fprintf, hv]; exact next_trav hE d hn
    · intro w hwv
      simp only [loopStep]; rw [get_set_ne hwv, get_fprintf]; exact hw w hwv
  · rintro t ⟨hv, -⟩
    simp only [loopCond, hv]; exact test_trav_exit hE hQ hL d
  · refine ⟨?_, fun w hwv => ?_⟩
    · simp only [loopInit, get_set_same]; exact first_eq_trav hE d
    · simp only [loopInit]; exact get_set_ne hwv _ _
  · exact hfuel

/-- The outer loop of a face returns after `Q + 1` iterations. -/
theorem outerLoop_runs {rnd : ℚ → ℚ} {Q : ℤ} {L : ℚ} (hE : ExactOn rnd Q L) (hQ : 1 ≤ Q)
    (hL : 0 < L) {fuel : ℕ} (hfuel : Q.toNat + 2 ≤ fuel) (r : FaceRow)
    (hr : r.outer ≠ r.inner) (s : State) :
    (∃ t, faceOf rnd Q L fuel r s = some t ∧
      r.outer.get t = trav Q L r.outerDir (Q.toNat + 1)) ∧
    loopIterations (loopCond rnd L r.outer r.outerDir) (loopStep rnd Q L r.outer r.outerDir)
      (innerLoop rnd Q L fuel r) fuel (outerInit rnd L r s) = some (Q.toNat + 1) := by
  apply loop_count _ _ _ (fun n t => r.outer.get t = trav Q L r.outerDir n) Q.toNat fuel
  · rintro n t hn hv
    obtain ⟨⟨u, hu, -, hw⟩, -⟩ := innerLoop_runs hE hQ hL hfuel r.inner r.innerDir t
    refine ⟨?_, u, hu, ?_⟩
    · simp only [loopCond, hv]; exact test_trav hE hQ hL _ hn
    · simp only [loopStep, get_set_same, hw _ hr, hv]; exact next_trav hE _ hn
  · rintro t hv
    simp only [loopCond, hv]; exact test_trav_exit hE hQ hL _
  · simp only [outerInit, loopInit, get_set_same]; exact first_eq_trav hE _
  · exact hfuel

theorem loopTable_distinct : ∀ r ∈ loopTable, r.outer ≠ r.inner ∧ r.fixed ≠ r.outer ∧
    r.fixed ≠ r.inner := by decide
/-! ## A face does not read the incoming `i`, `j`, `k` -/

theorem rel_cases {R : State → State → Prop} {a b : Option State} (h : Option.Rel R a b) :
    (a = none ∧ b = none) ∨ ∃ u v, a = some u ∧ b = some v ∧ R u v := by
  cases h with
  | none => exact Or.inl ⟨rfl, rfl⟩
  | some h => exact Or.inr ⟨_, _, rfl, rfl, h⟩

/-- Two runs of a loop from related states stay related, when the relation makes the
condition agree and is restored by body and increment. -/
theorem forLoop_rel (cond : State → Bool) (step : State → State)
    (body : State → Option State) (R : State → State → Prop)
    (hc : ∀ s t, R s t → cond s = cond t)
    (hb : ∀ s t, R s t → Option.Rel (fun u v => R (step u) (step v)) (body s) (body t)) :
    ∀ (fuel : ℕ) (s t : State), R s t →
      Option.Rel R (forLoop cond step body fuel s) (forLoop cond step body fuel t) := by
  intro fuel
  induction fuel with
  | zero => intro s t _; exact Option.Rel.none
  | succ fuel ih =>
    intro s t hR
    simp only [forLoop, ← hc s t hR]
    cases hcs : cond s with
    | false => simpa using Option.Rel.some hR
    | true =>
      rcases rel_cases (hb s t hR) with ⟨h1, h2⟩ | ⟨u, v, h1, h2, h⟩
      · simpa [h1, h2] using Option.Rel.none
      · simpa [h1, h2] using ih _ _ h

theorem loopTable_complete (w : Var) : ∀ r ∈ loopTable,
    w = r.fixed ∨ w = r.outer ∨ w = r.inner := by
  cases w <;> decide

/-- A face of the loop table, run from two states with the same stream, returns in both
or in neither, with the same stream. -/
theorem faceOf_rel (rnd : ℚ → ℚ) (Q : ℤ) (L : ℚ) (fuel : ℕ) (r : FaceRow)
    (hr : r ∈ loopTable) (s t : State) (h : s.out = t.out) :
    Option.Rel (fun u v => u.out = v.out) (faceOf rnd Q L fuel r s)
      (faceOf rnd Q L fuel r t) := by
  obtain ⟨hoi, hfo, -⟩ := loopTable_distinct r hr
  have hall := fun w => loopTable_complete w r hr
  have key := forLoop_rel (loopCond rnd L r.outer r.outerDir)
    (loopStep rnd Q L r.outer r.outerDir) (innerLoop rnd Q L fuel r)
    (fun u v => u.out = v.out ∧ ∀ w, w ≠ r.inner → w.get u = w.get v) ?_ ?_ fuel
    (outerInit rnd L r s) (outerInit rnd L r t) ?_
  · rcases rel_cases key with ⟨h1, h2⟩ | ⟨u, v, h1, h2, hR⟩
    · simp only [faceOf, h1, h2]; exact Option.Rel.none
    · simp only [faceOf, h1, h2]; exact Option.Rel.some hR.1
  · rintro u v ⟨-, hw⟩
    simp only [loopCond, hw _ hoi]
  · rintro u v ⟨ho, hw⟩
    have heq : loopInit rnd L r.inner r.innerDir u = loopInit rnd L r.inner r.innerDir v := by
      apply state_ext
      · intro w
        by_cases hwi : w = r.inner
        · subst hwi; simp only [loopInit, get_set_same]
        · simp only [loopInit, get_set_ne hwi]; exact hw w hwi
      · simp only [loopInit, out_set]; exact ho
    simp only [innerLoop, heq]
    cases forLoop (loopCond rnd L r.inner r.innerDir) (loopStep rnd Q L r.inner r.innerDir)
        emitVertex fuel (loopInit rnd L r.inner r.innerDir v) with
    | none => exact Option.Rel.none
    | some x => exact Option.Rel.some ⟨rfl, fun _ _ => rfl⟩
  · refine ⟨by simp only [outerInit, loopInit, out_set]; exact h, fun w hwi => ?_⟩
    by_cases hwo : w = r.outer
    · subst hwo; simp only [outerInit, loopInit, get_set_same]
    · rcases hall w with hf | hf | hf
      · subst hf; simp only [outerInit, loopInit, get_set_ne hwo, get_set_same]
      · exact absurd hf hwo
      · exact absurd hf hwi

/-- A statement whose effect on the stream depends on the incoming stream only. -/
theorem faceOf_out (rnd : ℚ → ℚ) (Q : ℤ) (L : ℚ) (fuel : ℕ) (r : FaceRow)
    (hr : r ∈ loopTable) (s t : State) (h : s.out = t.out) :
    (faceOf rnd Q L fuel r s).map State.out = (faceOf rnd Q L fuel r t).map State.out := by
  rcases rel_cases (faceOf_rel rnd Q L fuel r hr s t h) with ⟨h1, h2⟩ | ⟨u, v, h1, h2, hR⟩
  · rw [h1, h2]
  · rw [h1, h2]; simp [hR]

theorem bind_scoped (fresh : ℕ → ℚ × ℚ × ℚ) (n : ℕ) (face : State → Option State)
    (hf : ∀ s t : State, s.out = t.out → (face s).map State.out = (face t).map State.out)
    (x : Option State) :
    (x.bind face).map State.out = (x.map State.out).bind (scopedFace fresh n face) := by
  cases x with
  | none => rfl
  | some s => exact hf s _ rfl

theorem faces_out (rnd : ℚ → ℚ) (Q : ℤ) (L : ℚ) (fuel : ℕ) :
    ∀ f ∈ [face1 rnd Q L fuel, face2 rnd Q L fuel, face3 rnd Q L fuel, face4 rnd Q L fuel,
      face5 rnd Q L fuel, face6 rnd Q L fuel],
      ∀ s t : State, s.out = t.out → (f s).map State.out = (f t).map State.out := by
  intro f hf
  rw [faces_eq_table] at hf
  obtain ⟨r, hr, rfl⟩ := List.mem_map.mp hf
  exact faceOf_out rnd Q L fuel r hr

theorem mainBody_scoped (rnd : ℚ → ℚ) (Q : ℤ) (L : ℚ) (fuel : ℕ) (fresh : ℕ → ℚ × ℚ × ℚ)
    (s : State) :
    (mainBody rnd Q L fuel s).map State.out = mainScoped rnd Q L fuel fresh s.out := by
  have h := faces_out rnd Q L fuel
  simp only [List.mem_cons, List.mem_singleton, List.not_mem_nil, or_false,
    forall_eq_or_imp, forall_eq] at h
  obtain ⟨h1, h2, h3, h4, h5, h6⟩ := h
  simp only [mainBody, mainScoped]
  rw [bind_scoped fresh 6 _ h6, bind_scoped fresh 5 _ h5, bind_scoped fresh 4 _ h4,
    bind_scoped fresh 3 _ h3, bind_scoped fresh 2 _ h2]
  congr 5
  exact h1 _ _ rfl
/-! ## The output file -/

theorem fopen_w (file : File) : fopen "w" true file = (some [], some []) := by
  simp [fopen]

theorem fopen_a (file : File) : fopen "a" true file = (some (file.getD []), some []) := by
  have h : ¬ ("a" = "w") := by decide
  simp [fopen, h]

theorem fopen_null (mode : String) (file : File) : fopen mode false file = (file, none) := rfl

/-- A run that opens the file leaves in it the text of the calls made on the stream, and
nothing else. -/
theorem runWith_text (rnd : ℚ → ℚ) (Q : ℤ) (L : ℚ) (fuel : ℕ) (i0 j0 k0 : ℚ) (file : File) :
    runWith rnd Q L fuel i0 j0 k0 true file =
      (mainBody rnd Q L fuel ⟨i0, j0, k0, []⟩).map fun t =>
        (Outcome.exit 0, some (fileText t.out)) := by
  simp only [runWith, fopen_w, closeStream, Option.getD_some, List.nil_append]

theorem runWith_open (rnd : ℚ → ℚ) (Q : ℤ) (L : ℚ) (fuel : ℕ) (i0 j0 k0 : ℚ) (file : File) :
    runWith rnd Q L fuel i0 j0 k0 true file =
      (mainScoped rnd Q L fuel (fun _ => (0, 0, 0)) []).map fun out =>
        (Outcome.exit 0, some (fileText out)) := by
  rw [runWith_text, ← mainBody_scoped rnd Q L fuel (fun _ => (0, 0, 0)) ⟨i0, j0, k0, []⟩,
    Option.map_map]
  rfl

theorem runMain_open {rnd : ℚ → ℚ} (hr : RoundsToBinary32 rnd) {fuel : ℕ} (hfuel : 6 ≤ fuel)
    (i0 j0 k0 : ℚ) (file : File) :
    runMain rnd fuel i0 j0 k0 true file =
      some (Outcome.exit 0,
        some (fileText (headerCall 4 :: (refVertices 4 30).map vertexCall))) := by
  obtain ⟨t, ht, ho, -⟩ := main_spec hr hfuel i0 j0 k0
  have h : mainBody rnd 4 (rnd 30) fuel ⟨i0, j0, k0, []⟩ = some t := ht
  rw [runMain, runWith_text, h, Option.map_some', ho]

/-- Without a file handle the run reaches the first `fprintf` with the null pointer; the
file is left as it was. -/
theorem runMain_null (rnd : ℚ → ℚ) (fuel : ℕ) (i0 j0 k0 : ℚ) (file : File) :
    runMain rnd fuel i0 j0 k0 false file = some (Outcome.undefined, file) := rfl

/-! ## Rows of a block -/

theorem block_first_row (Q : ℤ) (f : ℕ → ℕ → Vertex) :
    (block Q f).take (Q.toNat + 1) = (List.range (Q.toNat + 1)).map fun b => f 0 b := by
  have h : block Q f = ((List.range (Q.toNat + 1)).map fun b => f 0 b) ++
      ((List.range Q.toNat).map Nat.succ).flatMap fun a =>
        (List.range (Q.toNat + 1)).map fun b => f a b := by
    simp only [block]
    rw [List.range_succ_eq_map Q.toNat, List.flatMap_cons]
  rw [h]
  exact List.take_left' (by simp)

theorem block_last_row (Q : ℤ) (f : ℕ → ℕ → Vertex) :
    (block Q f).drop ((Q.toNat + 1) ^ 2 - (Q.toNat + 1)) =
      (List.range (Q.toNat + 1)).map fun b => f Q.toNat b := by
  have h : block Q f = ((List.range Q.toNat).flatMap fun a =>
      (List.range (Q.toNat + 1)).map fun b => f a b) ++
      ((List.range (Q.toNat + 1)).map fun b => f Q.toNat b) := by
    simp only [block]
    rw [List.range_succ Q.toNat, List.flatMap_append]
    simp
  have hlen : (Q.toNat + 1) ^ 2 - (Q.toNat + 1) = Q.toNat * (Q.toNat + 1) := by
    have : (Q.toNat + 1) ^ 2 = Q.toNat * (Q.toNat + 1) + (Q.toNat + 1) := by ring
    omega
  rw [h, hlen]
  exact List.drop_left' (length_grid _ _ _)

/-! ## How often a vertex is emitted -/

theorem absCount_eq_planeCount {L : ℚ} (hL : 0 < L) (v : Vertex) :
    absCount L v = planeCount L v := by
  have h : (0 : ℚ) ≤ L / 2 := by linarith
  simp only [absCount, planeCount, abs_eq h]

theorem comps_inj (f : ℕ) (v w : Vertex) (hx : fixedComp f v = fixedComp f w)
    (hr : freeComps f v = freeComps f w) : v = w := by
  obtain ⟨x, y, z⟩ := v
  obtain ⟨x', y', z'⟩ := w
  rcases f with _ | _ | _ | _ | _ | f <;>
    simp only [fixedComp, freeComps, Prod.mk.injEq] at hx hr ⊢ <;>
    obtain ⟨h1, h2⟩ := hr <;> exact ⟨by assumption, by assumption, by assumption⟩

/-- A vertex with grid values as free components occurs once in a face block when its
fixed component is the plane of the face, and not at all otherwise. -/
theorem count_face_block {Q : ℤ} {L : ℚ} (hQ : 1 ≤ Q) (hL : 0 < L) (f : ℕ) {u w : ℕ → ℚ}
    (hu : u = asc Q L ∨ u = desc Q L) (hw : w = asc Q L ∨ w = desc Q L)
    (F : ℕ → ℕ → Vertex) (hfx : ∀ a b, fixedComp f (F a b) = facePlane L f)
    (hfr : ∀ a b, freeComps f (F a b) = (w b, u a)) (v : Vertex)
    (hg : ∃ a b, a ≤ Q.toNat ∧ b ≤ Q.toNat ∧ freeComps f v = (asc Q L a, asc Q L b)) :
    (block Q F).count v = if fixedComp f v = facePlane L f then 1 else 0 := by
  split
  · rename_i hplane
    apply count_eq_one_of_nodup
    · apply nodup_grid
      intro a1 b1 a2 b2 h1 h2 h3 h4 h
      have h' := congrArg (freeComps f) h
      simp only [hfr, Prod.mk.injEq] at h'
      exact ⟨trav_inj hQ hL hu h1 h3 h'.2, trav_inj hQ hL hw h2 h4 h'.1⟩
    · obtain ⟨a, b, ha, hb, hab⟩ := hg
      obtain ⟨a', ha', hwa⟩ := trav_surj hQ hw ha
      obtain ⟨b', hb', hub⟩ := trav_surj hQ hu hb
      refine (mem_block Q F v).mpr ⟨b', a', hb', ha', ?_⟩
      apply comps_inj f
      · rw [hfx, hplane]
      · rw [hfr, hab, hwa, hub]
  · rename_i hplane
    apply List.count_eq_zero.mpr
    intro hmem
    obtain ⟨a, b, -, -, rfl⟩ := (mem_block Q F v).mp hmem
    exact hplane (hfx a b)

theorem ite_plane {L : ℚ} (hL : 0 < L) (x : ℚ) :
    (if x = L / 2 ∨ x = -(L / 2) then 1 else 0) =
      (if x = L / 2 then 1 else 0) + (if x = -(L / 2) then 1 else 0) := by
  by_cases h1 : x = L / 2
  · have h2 : ¬ x = -(L / 2) := by intro h; linarith
    simp [h1, h2]
    intro h; linarith
  · simp [h1]

/-- A vertex with three grid values as components occurs in the reference sequence as
many times as it has components equal to `±L/2`. -/
theorem count_refVertices {Q : ℤ} {L : ℚ} (hQ : 1 ≤ Q) (hL : 0 < L) {a b c : ℕ}
    (ha : a ≤ Q.toNat) (hb : b ≤ Q.toNat) (hc : c ≤ Q.toNat) :
    (refVertices Q L).count (asc Q L a, asc Q L b, asc Q L c) =
      planeCount L (asc Q L a, asc Q L b, asc Q L c) := by
  have A : asc Q L = asc Q L ∨ asc Q L = desc Q L := Or.inl rfl
  have D : desc Q L = asc Q L ∨ desc Q L = desc Q L := Or.inr rfl
  have c0 := count_face_block hQ hL 0 A D (fun a b => (desc Q L b, asc Q L a, L / 2))
    (fun _ _ => rfl) (fun _ _ => rfl) (asc Q L a, asc Q L b, asc Q L c) ⟨a, b, ha, hb, rfl⟩
  have c1 := count_face_block hQ hL 1 D D (fun a b => (desc Q L b, L / 2, desc Q L a))
    (fun _ _ => rfl) (fun _ _ => rfl) (asc Q L a, asc Q L b, asc Q L c) ⟨a, c, ha, hc, rfl⟩
  have c2 := count_face_block hQ hL 2 D A (fun a b => (L / 2, asc Q L b, desc Q L a))
    (fun _ _ => rfl) (fun _ _ => rfl) (asc Q L a, asc Q L b, asc Q L c) ⟨b, c, hb, hc, rfl⟩
  have c3 := count_face_block hQ hL 3 D A (fun a b => (asc Q L b, -(L / 2), desc Q L a))
    (fun _ _ => rfl) (fun _ _ => rfl) (asc Q L a, asc Q L b, asc Q L c) ⟨a, c, ha, hc, rfl⟩
  have c4 := count_face_block hQ hL 4 D D (fun a b => (-(L / 2), desc Q L b, desc Q L a))
    (fun _ _ => rfl) (fun _ _ => rfl) (asc Q L a, asc Q L b, asc Q L c) ⟨b, c, hb, hc, rfl⟩
  have c5 := count_face_block hQ hL 5 D D (fun a b => (desc Q L b, desc Q L a, -(L / 2)))
    (fun _ _ => rfl) (fun _ _ => rfl) (asc Q L a, asc Q L b, asc Q L c) ⟨a, b, ha, hb, rfl⟩
  simp only [fixedComp, facePlane] at c0 c1 c2 c3 c4 c5
  simp only [refVertices, refFaces, List.flatten_cons, List.flatten_nil, List.count_append,
    List.count_nil, c0, c1, c2, c3, c4, c5, planeCount, ite_plane hL]
  ring

/-- The components of a reference vertex are grid values. -/
theorem ref_coords_grid {Q : ℤ} {L : ℚ} (hQ : 1 ≤ Q) (v : Vertex)
    (hv : v ∈ refVertices Q L) :
    ∃ a b c, a ≤ Q.toNat ∧ b ≤ Q.toNat ∧ c ≤ Q.toNat ∧
      (a = 0 ∨ a = Q.toNat ∨ b = 0 ∨ b = Q.toNat ∨ c = 0 ∨ c = Q.toNat) ∧
      v = (asc Q L a, asc Q L b, asc Q L c) := by
  obtain ⟨a, b, ha, hb, h⟩ := ref_shape hQ v hv
  have htop : asc Q L Q.toNat = L / 2 := asc_top hQ
  have hbot : asc Q L 0 = -(L / 2) := asc_zero Q L
  have hz : (0 : ℕ) ≤ Q.toNat := Nat.zero_le _
  rcases h with h | h | h | h | h | h
  · exact ⟨a, b, Q.toNat, ha, hb, le_refl _, by simp, by rw [h, htop]⟩
  · exact ⟨a, b, 0, ha, hb, hz, by simp, by rw [h, hbot]⟩
  · exact ⟨a, Q.toNat, b, ha, le_refl _, hb, by simp, by rw [h, htop]⟩
  · exact ⟨a, 0, b, ha, hz, hb, by simp, by rw [h, hbot]⟩
  · exact ⟨Q.toNat, a, b, le_refl _, ha, hb, by simp, by rw [h, htop]⟩
  · exact ⟨0, a, b, hz, ha, hb, by simp, by rw [h, hbot]⟩
theorem planeCount_asc {Q : ℤ} {L : ℚ} (hQ : 1 ≤ Q) (hL : 0 < L) (a b c : ℕ) :
    planeCount L (asc Q L a, asc Q L b, asc Q L c) =
      (if a = 0 ∨ a = Q.toNat then 1 else 0) + (if b = 0 ∨ b = Q.toNat then 1 else 0) +
        (if c = 0 ∨ c = Q.toNat then 1 else 0) := by
  simp only [planeCount, asc_plane_iff hQ hL]

/-- A triple of grid values with an end value among them is a reference vertex. -/
theorem ref_of_grid {Q : ℤ} {L : ℚ} (hQ : 1 ≤ Q) (hL : 0 < L) {a b c : ℕ}
    (ha : a ≤ Q.toNat) (hb : b ≤ Q.toNat) (hc : c ≤ Q.toNat)
    (hbd : a = 0 ∨ a = Q.toNat ∨ b = 0 ∨ b = Q.toNat ∨ c = 0 ∨ c = Q.toNat) :
    (asc Q L a, asc Q L b, asc Q L c) ∈ refVertices Q L := by
  apply List.count_pos_iff.mp
  rw [count_refVertices hQ hL ha hb hc, planeCount_asc hQ hL]
  rcases hbd with h | h | h | h | h | h <;> simp [h]

theorem cube_diff (N : ℕ) (h : 1 ≤ N) : (N + 1) ^ 3 = (N - 1) ^ 3 + (6 * N ^ 2 + 2) := by
  obtain ⟨M, rfl⟩ : ∃ M, N = M + 1 := ⟨N - 1, by omega⟩
  simp only [Nat.add_sub_cancel]
  ring

/-- The reference sequence holds `6 * Q² + 2` distinct vertices: the grid points on the
surface of the cube. -/
theorem card_refVertices {Q : ℤ} {L : ℚ} (hQ : 1 ≤ Q) (hL : 0 < L) :
    (refVertices Q L).toFinset.card = 6 * Q.toNat ^ 2 + 2 := by
  set N := Q.toNat with hN
  have hN1 : 1 ≤ N := by omega
  let P : Finset (ℕ × ℕ × ℕ) :=
    Finset.range (N + 1) ×ˢ Finset.range (N + 1) ×ˢ Finset.range (N + 1)
  let bd : ℕ × ℕ × ℕ → Prop := fun p =>
    p.1 = 0 ∨ p.1 = N ∨ p.2.1 = 0 ∨ p.2.1 = N ∨ p.2.2 = 0 ∨ p.2.2 = N
  let g : ℕ × ℕ × ℕ → Vertex := fun p => (asc Q L p.1, asc Q L p.2.1, asc Q L p.2.2)
  have himg : (refVertices Q L).toFinset = (P.filter bd).image g := by
    ext v
    simp only [List.mem_toFinset, Finset.mem_image, Finset.mem_filter, Finset.mem_product,
      Finset.mem_range, P, bd, g, Prod.exists]
    constructor
    · intro hv
      obtain ⟨a, b, c, ha, hb, hc, hbd, rfl⟩ := ref_coords_grid hQ v hv
      exact ⟨a, b, c, ⟨⟨by omega, by omega, by omega⟩, hbd⟩, rfl⟩
    · rintro ⟨a, b, c, ⟨⟨ha, hb, hc⟩, hbd⟩, rfl⟩
      exact ref_of_grid hQ hL (by omega) (by omega) (by omega) hbd
  have hinj : Function.Injective g := by
    rintro ⟨a, b, c⟩ ⟨a', b', c'⟩ h
    simp only [g, Prod.mk.injEq] at h
    rw [asc_injOn hQ hL h.1, asc_injOn hQ hL h.2.1, asc_injOn hQ hL h.2.2]
  have hsplit := Finset.filter_card_add_filter_neg_card_eq_card (s := P) bd
  have hint : P.filter (fun p => ¬ bd p) =
      Finset.Ioo 0 N ×ˢ Finset.Ioo 0 N ×ˢ Finset.Ioo 0 N := by
    ext ⟨a, b, c⟩
    simp only [Finset.mem_filter, Finset.mem_product, Finset.mem_range, Finset.mem_Ioo, P, bd]
    omega
  have hP : P.card = (N + 1) ^ 3 := by
    simp only [P, Finset.card_product, Finset.card_range]; ring
  have hI : (Finset.Ioo 0 N ×ˢ Finset.Ioo 0 N ×ˢ Finset.Ioo 0 N).card = (N - 1) ^ 3 := by
    simp only [Finset.card_product, Nat.card_Ioo, Nat.sub_zero]; ring
  rw [himg, Finset.card_image_of_injective _ hinj]
  rw [hint, hP, hI] at hsplit
  have h3 := cube_diff N hN1
  omega
theorem abs_plane_grid {Q : ℤ} {L : ℚ} (hQ : 1 ≤ Q) (hL : 0 < L) {x : ℚ}
    (hx : |x| = L / 2) : ∃ a, a ≤ Q.toNat ∧ (a = 0 ∨ a = Q.toNat) ∧ x = asc Q L a := by
  rcases (abs_eq (by linarith : (0 : ℚ) ≤ L / 2)).mp hx with h | h
  · exact ⟨Q.toNat, le_refl _, Or.inr rfl, by rw [h, asc_top hQ]⟩
  · exact ⟨0, Nat.zero_le _, Or.inl rfl, by rw [h, asc_zero]⟩

/-! ## The hard-coded values on the lattice of multiples of `7.5` -/

theorem onLattice_of (n : ℤ) (hn : |n| ≤ 3) (x : ℚ) (hx : x = n * (15 / 2)) : OnLattice x :=
  ⟨n, hn, hx⟩

theorem isBinary32_of_onLattice (x : ℚ) (hx : OnLattice x) : IsBinary32 x := by
  obtain ⟨n, hn, rfl⟩ := hx
  have h := isBinary32_half (15 * n) (by
    have h15 : |(15 : ℤ) * n| = 15 * |n| := by rw [abs_mul]; norm_num
    rw [h15]; norm_num; omega)
  have e : ((15 * n : ℤ) : ℚ) / 2 = n * (15 / 2) := by push_cast; ring
  rwa [e] at h

theorem asc_onLattice {a : ℕ} (ha : a ≤ 5) : OnLattice (asc 4 30 a) := by
  refine ⟨(a : ℤ) - 2, by rw [abs_le]; constructor <;> omega, ?_⟩
  simp only [asc, nthValue]; push_cast; ring

theorem desc_onLattice {a : ℕ} (ha : a ≤ 5) : OnLattice (desc 4 30 a) := by
  refine ⟨2 - (a : ℤ), by rw [abs_le]; constructor <;> omega, ?_⟩
  simp only [desc, nthValue]; push_cast; ring

theorem plane_onLattice : OnLattice (30 / 2) ∧ OnLattice (-(30 / 2)) ∧ OnLattice (30 / 4) :=
  ⟨⟨2, by norm_num, by norm_num⟩, ⟨-2, by norm_num, by norm_num⟩, ⟨1, by norm_num, by norm_num⟩⟩

/-- A rounding operator that is exact on the lattice and on the constant `4` is
exact on every value the loops of `main` compute. -/
theorem exactOn_of_lattice {rnd : ℚ → ℚ} (h : ∀ x, OnLattice x → rnd x = x)
    (h4 : rnd 4 = 4) : ExactOn rnd 4 30 := by
  refine ⟨by simpa using h4, h _ plane_onLattice.1, h _ ?_, fun n hn => ?_⟩
  · exact ⟨1, by norm_num, by norm_num⟩
  · have hn4 : n ≤ 4 := by simpa using hn
    rw [desc_succ, asc_succ]
    exact ⟨h _ (desc_onLattice (by omega)), h _ (asc_onLattice (by omega))⟩

theorem ref_onLattice (v : Vertex) (hv : v ∈ refVertices 4 30) :
    OnLattice v.1 ∧ OnLattice v.2.1 ∧ OnLattice v.2.2 := by
  obtain ⟨a, b, c, ha, hb, hc, -, rfl⟩ := ref_coords_grid (by decide) v hv
  have ha' : a ≤ 4 := by simpa using ha
  have hb' : b ≤ 4 := by simpa using hb
  have hc' : c ≤ 4 := by simpa using hc
  exact ⟨asc_onLattice (by omega), asc_onLattice (by omega), asc_onLattice (by omega)⟩

/-- The run of `main` face by face, under a rounding operator exact on the lattice and on
the constants: the states after the six faces and the vertices emitted. -/
theorem main_trace {rnd : ℚ → ℚ} (h : ∀ x, OnLattice x → rnd x = x)
    (h30 : rnd 30 = 30) (h4 : rnd 4 = 4) {fuel : ℕ} (hfuel : 6 ≤ fuel) (i0 j0 k0 : ℚ) :
    ∃ t1 t2 t3 t4 t5 t6,
      face1 rnd 4 (rnd 30) fuel (fprintf ⟨i0, j0, k0, []⟩ "\t     %d\n" [Arg.int 4]) = some t1 ∧
      face2 rnd 4 (rnd 30) fuel t1 = some t2 ∧ face3 rnd 4 (rnd 30) fuel t2 = some t3 ∧
      face4 rnd 4 (rnd 30) fuel t3 = some t4 ∧ face5 rnd 4 (rnd 30) fuel t4 = some t5 ∧
      face6 rnd 4 (rnd 30) fuel t5 = some t6 ∧
      main rnd fuel i0 j0 k0 = some t6 ∧
      (∀ t ∈ [t1, t2, t3, t4, t5, t6], OnLattice t.i ∧ OnLattice t.j ∧ OnLattice t.k) ∧
      t6 = ⟨desc 4 30 5, desc 4 30 5, -(30 / 2),
        headerCall 4 :: (refVertices 4 30).map vertexCall⟩ := by
  have hE := exactOn_of_lattice h h4
  have hQ : (1 : ℤ) ≤ 4 := by decide
  have hL : (0 : ℚ) < 30 := by norm_num
  have hf : (4 : ℤ).toNat + 2 ≤ fuel := by simpa using hfuel
  obtain ⟨t1, h1, a1, b1, c1, -⟩ :=
    face1_spec hE hQ hL hf (fprintf ⟨i0, j0, k0, []⟩ "\t     %d\n" [Arg.int 4])
  obtain ⟨t2, h2, a2, b2, c2, -⟩ := face2_spec hE hQ hL hf t1
  obtain ⟨t3, h3, a3, b3, c3, -⟩ := face3_spec hE hQ hL hf t2
  obtain ⟨t4, h4', a4, b4, c4, -⟩ := face4_spec hE hQ hL hf t3
  obtain ⟨t5, h5, a5, b5, c5, -⟩ := face5_spec hE hQ hL hf t4
  obtain ⟨t6, h6, a6, b6, c6, -⟩ := face6_spec hE hQ hL hf t5
  obtain ⟨u, hu, ui, uj, uk, uo⟩ := mainBody_spec hE hQ hL hf ⟨i0, j0, k0, []⟩
  have hm : main rnd fuel i0 j0 k0 = some t6 := by
    simp only [main, mainBody, h30, h1, h2, h3, h4', h5, h6, Option.some_bind]
  have hut : u = t6 := by
    have : main rnd fuel i0 j0 k0 = some u := by rw [main, h30]; exact hu
    rw [hm] at this
    exact (Option.some.inj this).symm
  have hd5 : OnLattice (desc 4 30 ((4 : ℤ).toNat + 1)) := desc_onLattice (by decide)
  have ha5 : OnLattice (asc 4 30 ((4 : ℤ).toNat + 1)) := asc_onLattice (by decide)
  have hp := plane_onLattice
  refine ⟨t1, t2, t3, t4, t5, t6, by rw [h30]; exact h1, by rw [h30]; exact h2,
    by rw [h30]; exact h3, by rw [h30]; exact h4', by rw [h30]; exact h5,
    by rw [h30]; exact h6, hm, ?_, ?_⟩
  · intro t ht
    simp only [List.mem_cons, List.mem_singleton, List.not_mem_nil, or_false] at ht
    rcases ht with rfl | rfl | rfl | rfl | rfl | rfl
    · exact ⟨a1 ▸ hd5, b1 ▸ ha5, c1 ▸ hp.1⟩
    · exact ⟨a2 ▸ hd5, c2 ▸ hp.1, b2 ▸ hd5⟩
    · exact ⟨c3 ▸ hp.1, a3 ▸ ha5, b3 ▸ hd5⟩
    · exact ⟨a4 ▸ ha5, c4 ▸ hp.2.1, b4 ▸ hd5⟩
    · exact ⟨c5 ▸ hp.2.1, a5 ▸ hd5, b5 ▸ hd5⟩
    · exact ⟨a6 ▸ hd5, b6 ▸ hd5, c6 ▸ hp.2.1⟩
  · subst hut
    cases u
    simp only [List.nil_append] at ui uj uk uo
    subst ui uj uk uo
    rfl
theorem lattice_exact_of_binary32 {rnd : ℚ → ℚ} (hr : RoundsToBinary32 rnd) :
    (∀ x, OnLattice x → rnd x = x) ∧ rnd 30 = 30 ∧ rnd 4 = 4 :=
  ⟨fun x hx => hr x (isBinary32_of_onLattice x hx),
    rounds_half hr 60 (by norm_num) _ (by norm_num),
    rounds_half hr 8 (by norm_num) _ (by norm_num)⟩

theorem main_eq_exact {rnd : ℚ → ℚ} (h : ∀ x, OnLattice x → rnd x = x)
    (h30 : rnd 30 = 30) (h4 : rnd 4 = 4) {fuel : ℕ} (hfuel : 6 ≤ fuel) (i0 j0 k0 : ℚ) :
    main rnd fuel i0 j0 k0 = main id fuel i0 j0 k0 := by
  obtain ⟨_, _, _, _, _, t, -, -, -, -, -, -, hm, -, ht⟩ := main_trace h h30 h4 hfuel i0 j0 k0
  obtain ⟨_, _, _, _, _, u, -, -, -, -, -, -, hm', -, hu⟩ :=
    @main_trace id (fun _ _ => rfl) rfl rfl fuel hfuel i0 j0 k0
  rw [hm, hm', ht, hu]

/-! ## The digits printed are the value -/

theorem digitValue_digitChar (d : ℕ) (hd : d < 10) : digitValue (Nat.digitChar d) = d := by
  interval_cases d <;> decide

theorem foldl_toDigitsCore :
    ∀ (fuel n : ℕ) (ds : List Char), n < fuel →
      (Nat.toDigitsCore 10 fuel n ds).foldl (fun n c => 10 * n + digitValue c) 0 =
        ds.foldl (fun n c => 10 * n + digitValue c) n := by
  intro fuel
  induction fuel with
  | zero => intro n ds h; omega
  | succ fuel ih =>
    intro n ds h
    have hd : digitValue (Nat.digitChar (n % 10)) = n % 10 :=
      digitValue_digitChar _ (Nat.mod_lt _ (by norm_num))
    simp only [Nat.toDigitsCore]
    split
    · rename_i h0
      have hn : n % 10 = n := by omega
      rw [hn] at hd
      simp only [List.foldl_cons, hn, hd, Nat.mul_zero, Nat.zero_add]
    · rename_i h0
      rw [ih (n / 10) _ (by omega)]
      simp only [List.foldl_cons, hd]
      congr 1
      omega

theorem readNat_fmtNat (n : ℕ) : readNat (fmtNat n) = n := by
  simp only [readNat, fmtNat, Nat.toDigits]
  rw [foldl_toDigitsCore (n + 1) n [] (by omega)]
  rfl

theorem readNat_frac6 (n : ℕ) (hn : n < 1000000) : readNat (frac6 n) = n := by
  have h0 := digitValue_digitChar (n / 100000 % 10) (Nat.mod_lt _ (by norm_num))
  have h1 := digitValue_digitChar (n / 10000 % 10) (Nat.mod_lt _ (by norm_num))
  have h2 := digitValue_digitChar (n / 1000 % 10) (Nat.mod_lt _ (by norm_num))
  have h3 := digitValue_digitChar (n / 100 % 10) (Nat.mod_lt _ (by norm_num))
  have h4 := digitValue_digitChar (n / 10 % 10) (Nat.mod_lt _ (by norm_num))
  have h5 := digitValue_digitChar (n % 10) (Nat.mod_lt _ (by norm_num))
  simp only [readNat, frac6, List.map_cons, List.map_nil, List.foldl_cons, List.foldl_nil,
    h0, h1, h2, h3, h4, h5]
  omega

theorem takeWhile_append_stop {p : Char → Bool} :
    ∀ (xs : List Char) (y : Char) (ys : List Char), (∀ c ∈ xs, p c = true) → p y = false →
      (xs ++ y :: ys).takeWhile p = xs ∧ (xs ++ y :: ys).dropWhile p = y :: ys := by
  intro xs
  induction xs with
  | nil => intro y ys _ hy; simp [List.takeWhile, List.dropWhile, hy]
  | cons x xs ih =>
    intro y ys hx hy
    have hx1 : p x = true := hx x (List.mem_cons_self _ _)
    obtain ⟨h1, h2⟩ := ih y ys (fun c hc => hx c (List.mem_cons_of_mem _ hc)) hy
    simp [List.takeWhile_cons, List.dropWhile_cons, hx1, h1, h2]

theorem readUnsigned_digits (ws fs : List Char) (hw : ∀ c ∈ ws, c.isDigit = true) :
    readUnsigned (ws ++ '.' :: fs) = (readNat ws : ℚ) + (readNat fs : ℚ) / 10 ^ fs.length := by
  have hp : ∀ c ∈ ws, (fun c : Char => c != '.') c = true := by
    intro c hc
    have hd := hw c hc
    simp only [bne_iff_ne, ne_eq]
    rintro rfl
    exact absurd hd (by decide)
  obtain ⟨h1, h2⟩ := takeWhile_append_stop ws '.' fs hp (by decide)
  simp only [readUnsigned, h1, h2, List.drop_succ_cons, List.drop_zero]

theorem readFixed_of_digit (c : Char) (cs : List Char) (hc : c.isDigit = true) :
    readFixed (c :: cs) = readUnsigned (c :: cs) := by
  have hne : c ≠ '-' := by rintro rfl; exact absurd hc (by decide)
  unfold readFixed
  split
  · rename_i h; exact absurd (List.cons.inj h).1 hne
  · rfl

theorem floor_toNat_cast {q : ℚ} (hq : 0 ≤ q) : ((⌊q⌋.toNat : ℕ) : ℚ) = (⌊q⌋ : ℚ) := by
  have h : ((⌊q⌋.toNat : ℕ) : ℤ) = ⌊q⌋ := Int.toNat_of_nonneg (Int.floor_nonneg.mpr hq)
  exact_mod_cast h

/-- The value `roundHalfEven` returns is within one half of its argument. -/
theorem roundHalfEven_near {q : ℚ} (hq : 0 ≤ q) : |(roundHalfEven q : ℚ) - q| ≤ 1 / 2 := by
  have hf := floor_toNat_cast hq
  have h1 : (⌊q⌋ : ℚ) ≤ q := Int.floor_le q
  have h2 : q < (⌊q⌋ : ℚ) + 1 := Int.lt_floor_add_one q
  simp only [roundHalfEven]
  rw [abs_le]
  split_ifs with a b c <;> push_cast <;> rw [hf] at * <;> constructor <;> linarith

theorem roundHalfEven_natCast (n : ℕ) : roundHalfEven (n : ℚ) = n := by
  have h : ⌊(n : ℚ)⌋.toNat = n := by simp
  simp only [roundHalfEven, h]
  norm_num

theorem printed_near (x : ℚ) : |printed x - x| ≤ 1 / 2000000 := by
  have hq : (0 : ℚ) ≤ |x| * 1000000 := mul_nonneg (abs_nonneg x) (by norm_num)
  have h := roundHalfEven_near hq
  rw [abs_le] at h ⊢
  obtain ⟨h1, h2⟩ := h
  simp only [printed]
  split_ifs with hx
  · rw [abs_of_neg hx] at h1 h2 ⊢
    constructor <;> linarith
  · rw [abs_of_nonneg (not_lt.mp hx)] at h1 h2 ⊢
    constructor <;> linarith

theorem printed_exact (x : ℚ) (k : ℕ) (hk : |x| * 1000000 = k) : printed x = x := by
  simp only [printed, hk, roundHalfEven_natCast]
  rw [← hk]
  split_ifs with hx
  · rw [abs_of_neg hx]; ring
  · rw [abs_of_nonneg (not_lt.mp hx)]; ring

/-- The numeral `%f` writes for `x` reads back as `printed x`. -/
theorem readFixed_fmtF (x : ℚ) : readFixed (fmtF x) = printed x := by
  have hm : ∀ m : ℕ, readUnsigned (fmtNat (m / 1000000) ++ '.' :: frac6 (m % 1000000)) =
      (m : ℚ) / 1000000 := by
    intro m
    rw [readUnsigned_digits _ _ (fmtNat_isDigit _), readNat_fmtNat,
      readNat_frac6 _ (Nat.mod_lt _ (by norm_num)), frac6_length]
    have h := Nat.div_add_mod m 1000000
    have hq : (m : ℚ) = 1000000 * ((m / 1000000 : ℕ) : ℚ) + ((m % 1000000 : ℕ) : ℚ) := by
      exact_mod_cast h.symm
    rw [hq]
    norm_num
    ring
  simp only [fmtF, printed]
  split_ifs with hx
  · simp only [List.singleton_append, List.cons_append, List.nil_append, readFixed,
      List.append_assoc, hm]
    ring
  · simp only [List.nil_append]
    obtain ⟨c, cs, hcs⟩ := List.exists_cons_of_ne_nil (fmtNat_ne_nil
      (roundHalfEven (|x| * 1000000) / 1000000))
    have hc : c.isDigit = true := fmtNat_isDigit _ c (by rw [hcs]; exact List.mem_cons_self _ _)
    have h := hm (roundHalfEven (|x| * 1000000))
    rw [hcs] at h ⊢
    rw [List.cons_append] at h ⊢
    rw [readFixed_of_digit c _ hc, h]
    ring

theorem numChar_not_separator (c : Char) (hc : IsNumChar c) : (!isSeparator c) = true := by
  have h1 : c ≠ '\t' := by rintro rfl; exact tab_not_numChar hc
  have h2 : c ≠ '\n' := by rintro rfl; exact newline_not_numChar hc
  simp [isSeparator, h1, h2]

theorem splitField_fmtF (x : ℚ) (y : Char) (hy : isSeparator y = true) (rest : List Char) :
    splitField (fmtF x ++ y :: rest) = (fmtF x, y :: rest) := by
  obtain ⟨h1, h2⟩ := takeWhile_append_stop (p := fun c => !isSeparator c) (fmtF x) y rest
    (fun c hc => numChar_not_separator c (fmtF_numChar x c hc)) (by simp [hy])
  simp only [splitField, h1, h2]

/-- A vertex line reads back as the three numbers printed, in the order `x`, `y`, `z`. -/
theorem readLine_render (x y z : ℚ) :
    readLine (render (vertexCall (x, y, z))) = some (printed x, printed y, printed z) := by
  have h : render (vertexCall (x, y, z)) =
      '\t' :: (fmtF x ++ '\t' :: (fmtF y ++ '\t' :: (fmtF z ++ '\n' :: []))) := by
    rw [render_vertexCall]; simp
  rw [h]
  simp only [readLine, splitField_fmtF x '\t' (by decide), splitField_fmtF y '\t' (by decide),
    splitField_fmtF z '\n' (by decide), readFixed_fmtF]

theorem onLattice_exact (x : ℚ) (hx : OnLattice x) : printed x = x := by
  obtain ⟨n, hn, rfl⟩ := hx
  apply printed_exact _ (n.natAbs * 7500000)
  rw [abs_mul, abs_of_pos (by norm_num : (0 : ℚ) < 15 / 2)]
  have h : |(n : ℚ)| = (n.natAbs : ℚ) := by
    rw [Nat.cast_natAbs, Int.cast_abs]
  rw [h]; push_cast; ring

/-! ## The claims on the text of a line, termination, files, scoping, seams, multiplicity
and binary32 -/

/-- C10: for the hard-coded `Q = 4`, `L = 30.0`, under any rounding to binary32 and with
fuel for six tests per loop, `main` returns and every call after the header is a vertex
call on the triple `(x, y, z)` of its vertex, for the vertices of all six faces.  A vertex
call writes a tab, `x`, a tab, `y`, a tab, `z` and a newline, each value in fixed-point
form: an optional minus sign, at least one digit, a point and exactly six digits.  The
digits are the value: a numeral `%f` writes reads back as the nearest multiple of `10⁻⁶`
to the value printed (ties to even, as for `1/128` and `3/128`), so a vertex line reads
back as the three numbers printed, in the order `x`, `y`, `z`; and the lines 2 to 151 of
the file read back as exactly the 150 vertices emitted.  The second line of the file is
`"\t15.000000\t-15.000000\t15.000000\n"` and the third
`"\t7.500000\t-15.000000\t15.000000\n"`. -/
theorem vertex_line_shape (rnd : ℚ → ℚ) (hr : RoundsToBinary32 rnd) (fuel : ℕ)
    (hfuel : 6 ≤ fuel) (i0 j0 k0 : ℚ) :
    ∃ t, main rnd fuel i0 j0 k0 = some t ∧
      t.out.tail = (vertices t.out).map vertexCall ∧
      vertices t.out = refVertices 4 30 ∧
      (∀ x y z : ℚ, render (vertexCall (x, y, z)) =
        '\t' :: fmtF x ++ '\t' :: fmtF y ++ '\t' :: fmtF z ++ ['\n']) ∧
      (∀ q : ℚ, ∃ sign whole frac, fmtF q = sign ++ whole ++ '.' :: frac ∧
        (sign = [] ∨ sign = ['-']) ∧ whole ≠ [] ∧ (∀ c ∈ whole, c.isDigit = true) ∧
        frac.length = 6 ∧ (∀ c ∈ frac, c.isDigit = true)) ∧
      (t.out.map render)[1]? = some "\t15.000000\t-15.000000\t15.000000\n".toList ∧
      (t.out.map render)[2]? = some "\t7.500000\t-15.000000\t15.000000\n".toList ∧
      (∀ q : ℚ, readFixed (fmtF q) = printed q ∧ |printed q - q| ≤ 1 / 2000000 ∧
        ((∃ k : ℕ, |q| * 1000000 = k) → printed q = q)) ∧
      (fmtF (1 / 128) = "0.007812".toList ∧ fmtF (3 / 128) = "0.023438".toList ∧
        fmtF (-(15 / 2)) = "-7.500000".toList) ∧
      (∀ x y z : ℚ, readLine (render (vertexCall (x, y, z))) =
        some (printed x, printed y, printed z)) ∧
      (t.out.tail.map render).map readLine = (vertices t.out).map some := by
  obtain ⟨t, ht, ho, hv⟩ := main_spec hr hfuel i0 j0 k0
  refine ⟨t, ht, by rw [hv, ho]; rfl, hv, render_vertexCall, fun q => ?_, ?_, ?_,
    fun q => ⟨readFixed_fmtF q, printed_near q, fun ⟨k, hk⟩ => printed_exact q k hk⟩,
    ⟨by decide!, by decide!, by decide!⟩, readLine_render, ?_⟩
  · refine ⟨if q < 0 then ['-'] else [], _, _, rfl, ?_, fmtNat_ne_nil _, fmtNat_isDigit _,
      frac6_length _, frac6_isDigit _⟩
    split
    · exact Or.inr rfl
    · exact Or.inl rfl
  · rw [ho]; decide!
  · rw [ho]; decide!
  · rw [hv, ho, List.tail_cons, List.map_map, List.map_map]
    apply List.map_congr_left
    intro v hmem
    obtain ⟨h1, h2, h3⟩ := ref_onLattice v hmem
    obtain ⟨x, y, z⟩ := v
    simp only [Function.comp_apply, readLine_render, onLattice_exact _ h1,
      onLattice_exact _ h2, onLattice_exact _ h3]

theorem vertex_line_shape_witness :
    RoundsToBinary32 id ∧ 6 ≤ 6 ∧
      ∃ t, main id 6 0 0 0 = some t ∧
        t.out.tail = (vertices t.out).map vertexCall ∧
        vertices t.out = refVertices 4 30 ∧
        (∀ x y z : ℚ, render (vertexCall (x, y, z)) =
          '\t' :: fmtF x ++ '\t' :: fmtF y ++ '\t' :: fmtF z ++ ['\n']) ∧
        (∀ q : ℚ, ∃ sign whole frac, fmtF q = sign ++ whole ++ '.' :: frac ∧
          (sign = [] ∨ sign = ['-']) ∧ whole ≠ [] ∧ (∀ c ∈ whole, c.isDigit = true) ∧
          frac.length = 6 ∧ (∀ c ∈ frac, c.isDigit = true)) ∧
        (t.out.map render)[1]? = some "\t15.000000\t-15.000000\t15.000000\n".toList ∧
        (t.out.map render)[2]? = some "\t7.500000\t-15.000000\t15.000000\n".toList ∧
        (∀ q : ℚ, readFixed (fmtF q) = printed q ∧ |printed q - q| ≤ 1 / 2000000 ∧
          ((∃ k : ℕ, |q| * 1000000 = k) → printed q = q)) ∧
        (fmtF (1 / 128) = "0.007812".toList ∧ fmtF (3 / 128) = "0.023438".toList ∧
          fmtF (-(15 / 2)) = "-7.500000".toList) ∧
        (∀ x y z : ℚ, readLine (render (vertexCall (x, y, z))) =
          some (printed x, printed y, printed z)) ∧
        (t.out.tail.map render).map readLine = (vertices t.out).map some :=
  ⟨roundsToBinary32_id, le_refl 6, vertex_line_shape id roundsToBinary32_id 6 (le_refl 6) 0 0 0⟩

/-- C11: for every integer `Q ≥ 1` and every `L > 0`, with exact loop arithmetic and fuel
for `Q + 2` tests per loop, every loop of `main` terminates and `mainBody` completes.  The
six faces are the six rows of the loop table; for each row, from every state, the face
returns and its outer loop runs exactly `Q + 1` iterations, and from every state in which
the inner loop is entered (so at each outer iteration) the inner loop returns and runs
exactly `Q + 1` iterations. -/
theorem loops_run_Q_plus_one_times (Q : ℤ) (L : ℚ) (hQ : 1 ≤ Q) (hL : 0 < L) (fuel : ℕ)
    (hfuel : Q.toNat + 2 ≤ fuel) :
    [face1 id Q L fuel, face2 id Q L fuel, face3 id Q L fuel, face4 id Q L fuel,
      face5 id Q L fuel, face6 id Q L fuel] = loopTable.map (faceOf id Q L fuel) ∧
    (∀ s, ∃ t, mainBody id Q L fuel s = some t) ∧
    ∀ r ∈ loopTable, ∀ s,
      (∃ t, faceOf id Q L fuel r s = some t) ∧
      loopIterations (loopCond id L r.outer r.outerDir) (loopStep id Q L r.outer r.outerDir)
        (innerLoop id Q L fuel r) fuel (outerInit id L r s) = some (Q.toNat + 1) ∧
      (∃ t, innerLoop id Q L fuel r s = some t) ∧
      loopIterations (loopCond id L r.inner r.innerDir) (loopStep id Q L r.inner r.innerDir)
        emitVertex fuel (loopInit id L r.inner r.innerDir s) = some (Q.toNat + 1) := by
  have hE := exactOn_id Q L
  refine ⟨rfl, fun s => ?_, fun r hr s => ?_⟩
  · obtain ⟨t, ht, -⟩ := mainBody_spec hE hQ hL hfuel s
    exact ⟨t, ht⟩
  · obtain ⟨⟨t, ht, -⟩, hn⟩ := outerLoop_runs hE hQ hL hfuel r (loopTable_distinct r hr).1 s
    obtain ⟨⟨u, hu, -⟩, hm⟩ := innerLoop_runs hE hQ hL hfuel r.inner r.innerDir s
    exact ⟨⟨t, ht⟩, hn, ⟨u, hu⟩, hm⟩

theorem loops_run_Q_plus_one_times_witness :
    (1 : ℤ) ≤ 4 ∧ (0 : ℚ) < 30 ∧ (4 : ℤ).toNat + 2 ≤ 6 ∧
      (∀ s, ∃ t, mainBody id 4 30 6 s = some t) ∧
      ∀ r ∈ loopTable, ∀ s,
        loopIterations (loopCond id 30 r.outer r.outerDir) (loopStep id 4 30 r.outer r.outerDir)
          (innerLoop id 4 30 6 r) 6 (outerInit id 30 r s) = some 5 ∧
        loopIterations (loopCond id 30 r.inner r.innerDir) (loopStep id 4 30 r.inner r.innerDir)
          emitVertex 6 (loopInit id 30 r.inner r.innerDir s) = some 5 := by
  obtain ⟨-, h1, h2⟩ :=
    loops_run_Q_plus_one_times 4 30 (by decide) (by norm_num) 6 (by decide)
  exact ⟨by decide, by norm_num, by decide, h1,
    fun r hr s => ⟨(h2 r hr s).2.1, (h2 r hr s).2.2.2⟩⟩

/-- C12: with the file as explicit state.  `fopen` with mode `"w"` leaves the file empty
whatever it held (mode `"a"` would keep the old content), and closing the stream puts the
text written after what the file held when it was opened; so a run that opens `icq.txt`
leaves exactly the text it wrote.  Hence the file left does not depend on what the file
held before, nor on the indeterminate initial values of `i`, `j`, `k`: two runs with the
same `Q` and `L` end alike with the same bytes, and a second run on the file left by the
first leaves the same file.  For the program as written, under any rounding to binary32
and with fuel for six tests per loop, the run returns and the file holds the header line
and the 150 vertex lines, not preceded by the old content. -/
theorem output_file_is_overwritten (rnd : ℚ → ℚ) (Q : ℤ) (L : ℚ) (fuel : ℕ)
    (i0 j0 k0 i1 j1 k1 : ℚ) (file file1 : File) :
    ((fopen "w" true file).1 = some [] ∧ (fopen "a" true file).1 = some (file.getD [])) ∧
    (∀ out, closeStream (fopen "w" true file).1 out = some (fileText out) ∧
      closeStream (fopen "a" true file).1 out = some (file.getD [] ++ fileText out)) ∧
    (∀ t, mainBody rnd Q L fuel ⟨i0, j0, k0, []⟩ = some t →
      runWith rnd Q L fuel i0 j0 k0 true file = some (Outcome.exit 0, some (fileText t.out))) ∧
    runWith rnd Q L fuel i0 j0 k0 true file = runWith rnd Q L fuel i1 j1 k1 true file1 ∧
    (∀ o f, runWith rnd Q L fuel i0 j0 k0 true file = some (o, f) →
      runWith rnd Q L fuel i1 j1 k1 true f = some (o, f)) ∧
    (RoundsToBinary32 rnd → 6 ≤ fuel →
      runMain rnd fuel i0 j0 k0 true file =
        some (Outcome.exit 0,
          some (fileText (headerCall 4 :: (refVertices 4 30).map vertexCall))) ∧
      ∀ old, old ≠ [] → runMain rnd fuel i0 j0 k0 true (some old) ≠
        some (Outcome.exit 0,
          some (old ++ fileText (headerCall 4 :: (refVertices 4 30).map vertexCall)))) := by
  refine ⟨⟨by rw [fopen_w], by rw [fopen_a]⟩, fun out => ⟨?_, ?_⟩, fun t ht => ?_,
    by rw [runWith_open, runWith_open], fun o f h => ?_, fun hr hfuel =>
    ⟨runMain_open hr hfuel i0 j0 k0 file, fun old hold => ?_⟩⟩
  · rw [fopen_w]; simp [closeStream]
  · rw [fopen_a]; simp [closeStream]
  · rw [runWith_text, ht, Option.map_some']
  · rw [runWith_open] at h ⊢
    exact h
  · rw [runMain_open hr hfuel]
    intro h
    have hlen := congrArg List.length (Option.some.inj (Prod.mk.inj (Option.some.inj h)).2)
    rw [List.length_append] at hlen
    have : 0 < old.length := List.length_pos.mpr hold
    omega

theorem output_file_is_overwritten_witness :
    RoundsToBinary32 id ∧ 6 ≤ 6 ∧
      runWith id 4 30 6 0 0 0 true none = runWith id 4 30 6 1 2 3 true (some ['x']) ∧
      runMain id 6 0 0 0 true (some ['x']) =
        some (Outcome.exit 0,
          some (fileText (headerCall 4 :: (refVertices 4 30).map vertexCall))) ∧
      runMain id 6 0 0 0 true (some ['x']) ≠
        some (Outcome.exit 0,
          some (['x'] ++ fileText (headerCall 4 :: (refVertices 4 30).map vertexCall))) :=
  ⟨roundsToBinary32_id, le_refl 6,
    (output_file_is_overwritten id 4 30 6 0 0 0 1 2 3 none (some ['x'])).2.2.2.1,
    ((output_file_is_overwritten id 4 30 6 0 0 0 1 2 3 (some ['x']) none).2.2.2.2.2
      roundsToBinary32_id (le_refl 6)).1,
    ((output_file_is_overwritten id 4 30 6 0 0 0 1 2 3 (some ['x']) none).2.2.2.2.2
      roundsToBinary32_id (le_refl 6)).2 ['x'] (by simp)⟩

/-- C14: the variables `i`, `j`, `k` carry nothing from one face to the next.  For every
rounding operator, `Q`, `L` and fuel, each of the six faces, run from two states that
hold the same stream and any values of `i`, `j`, `k`, returns in both or in neither and
leaves the same stream; hence `mainBody`, which passes the three variables from face to
face, writes what `mainScoped` writes, the program in which every face declares fresh
variables of its own.  For `Q ≥ 1`, `L > 0`, exact arithmetic and fuel for `Q + 2` tests
per loop both return, with the header and the reference vertex sequence appended. -/
theorem shared_variables_carry_nothing (rnd : ℚ → ℚ) (Q : ℤ) (L : ℚ) (hQ : 1 ≤ Q)
    (hL : 0 < L) (fuel : ℕ) (hfuel : Q.toNat + 2 ≤ fuel) (fresh : ℕ → ℚ × ℚ × ℚ)
    (s : State) :
    (∀ f ∈ [face1 rnd Q L fuel, face2 rnd Q L fuel, face3 rnd Q L fuel, face4 rnd Q L fuel,
        face5 rnd Q L fuel, face6 rnd Q L fuel],
      ∀ s t : State, s.out = t.out → (f s).map State.out = (f t).map State.out) ∧
    (mainBody rnd Q L fuel s).map State.out = mainScoped rnd Q L fuel fresh s.out ∧
    (mainBody id Q L fuel s).map State.out =
      some (s.out ++ headerCall Q :: (refVertices Q L).map vertexCall) ∧
    mainScoped id Q L fuel fresh s.out =
      some (s.out ++ headerCall Q :: (refVertices Q L).map vertexCall) := by
  obtain ⟨t, ht, -, -, -, ho⟩ := mainBody_spec (exactOn_id Q L) hQ hL hfuel s
  have hm : (mainBody id Q L fuel s).map State.out =
      some (s.out ++ headerCall Q :: (refVertices Q L).map vertexCall) := by
    rw [ht, Option.map_some', ho]
  exact ⟨faces_out rnd Q L fuel, mainBody_scoped rnd Q L fuel fresh s, hm,
    by rw [← mainBody_scoped id Q L fuel fresh s, hm]⟩

theorem shared_variables_carry_nothing_witness :
    (1 : ℤ) ≤ 4 ∧ (0 : ℚ) < 30 ∧ (4 : ℤ).toNat + 2 ≤ 6 ∧
      (mainBody id 4 30 6 ⟨1, 2, 3, []⟩).map State.out =
        mainScoped id 4 30 6 (fun _ => (0, 0, 0)) [] ∧
      mainScoped id 4 30 6 (fun _ => (0, 0, 0)) [] =
        some ([] ++ headerCall 4 :: (refVertices 4 30).map vertexCall) := by
  obtain ⟨-, h1, -, h2⟩ := shared_variables_carry_nothing id 4 30 (by decide) (by norm_num) 6
    (by decide) (fun _ => (0, 0, 0)) ⟨1, 2, 3, []⟩
  exact ⟨by decide, by norm_num, by decide, h1, h2⟩

/-- C15: for every integer `Q ≥ 1` and every `L > 0`, with exact loop arithmetic, the last
`Q + 1` vertices of the face 1 block are, position by position, the first `Q + 1` vertices
of the face 2 block, namely the edge `y = +L/2`, `z = +L/2` with `x` descending; and the
last `Q + 1` vertices of the face 2 block are, position by position, the first `Q + 1`
vertices of the face 6 block, namely the edge `y = +L/2`, `z = -L/2` with `x` descending. -/
theorem band_blocks_share_seam_rows (Q : ℤ) (L : ℚ) (hQ : 1 ≤ Q) (hL : 0 < L) (fuel : ℕ)
    (hfuel : Q.toNat + 2 ≤ fuel) (i0 j0 k0 : ℚ) :
    ∃ t, mainBody id Q L fuel ⟨i0, j0, k0, []⟩ = some t ∧
      (faceBlock Q 0 (vertices t.out)).drop ((Q.toNat + 1) ^ 2 - (Q.toNat + 1)) =
        (faceBlock Q 1 (vertices t.out)).take (Q.toNat + 1) ∧
      (faceBlock Q 1 (vertices t.out)).take (Q.toNat + 1) =
        (List.range (Q.toNat + 1)).map (fun b => (desc Q L b, L / 2, L / 2)) ∧
      (faceBlock Q 1 (vertices t.out)).drop ((Q.toNat + 1) ^ 2 - (Q.toNat + 1)) =
        (faceBlock Q 5 (vertices t.out)).take (Q.toNat + 1) ∧
      (faceBlock Q 5 (vertices t.out)).take (Q.toNat + 1) =
        (List.range (Q.toNat + 1)).map (fun b => (desc Q L b, L / 2, -(L / 2))) := by
  obtain ⟨t, ht, -, -, -, -, hv⟩ := mainBody_id hQ hL hfuel i0 j0 k0
  have htop : asc Q L Q.toNat = L / 2 := asc_top hQ
  have hbot : desc Q L Q.toNat = -(L / 2) := by
    rw [desc_eq_asc hQ (le_refl _), Nat.sub_self, asc_zero]
  have h0 : faceBlock Q 0 (refVertices Q L) =
      block Q (fun a b => (desc Q L b, asc Q L a, L / 2)) := faceBlock_ref Q L 0 _ rfl
  have h1 : faceBlock Q 1 (refVertices Q L) =
      block Q (fun a b => (desc Q L b, L / 2, desc Q L a)) := faceBlock_ref Q L 1 _ rfl
  have h5 : faceBlock Q 5 (refVertices Q L) =
      block Q (fun a b => (desc Q L b, desc Q L a, -(L / 2))) := faceBlock_ref Q L 5 _ rfl
  refine ⟨t, ht, ?_⟩
  rw [hv, h0, h1, h5, block_last_row, block_last_row, block_first_row, block_first_row]
  simp only [htop, hbot, desc_zero, and_self]

theorem band_blocks_share_seam_rows_witness :
    (1 : ℤ) ≤ 4 ∧ (0 : ℚ) < 30 ∧ (4 : ℤ).toNat + 2 ≤ 6 ∧
      ∃ t, mainBody id 4 30 6 ⟨0, 0, 0, []⟩ = some t ∧
        (faceBlock 4 0 (vertices t.out)).drop (((4 : ℤ).toNat + 1) ^ 2 - ((4 : ℤ).toNat + 1)) =
          (faceBlock 4 1 (vertices t.out)).take ((4 : ℤ).toNat + 1) ∧
        (faceBlock 4 1 (vertices t.out)).take ((4 : ℤ).toNat + 1) =
          (List.range ((4 : ℤ).toNat + 1)).map (fun b => (desc 4 30 b, 30 / 2, 30 / 2)) ∧
        (faceBlock 4 1 (vertices t.out)).drop (((4 : ℤ).toNat + 1) ^ 2 - ((4 : ℤ).toNat + 1)) =
          (faceBlock 4 5 (vertices t.out)).take ((4 : ℤ).toNat + 1) ∧
        (faceBlock 4 5 (vertices t.out)).take ((4 : ℤ).toNat + 1) =
          (List.range ((4 : ℤ).toNat + 1)).map (fun b => (desc 4 30 b, 30 / 2, -(30 / 2))) :=
  ⟨by decide, by norm_num, by decide,
    band_blocks_share_seam_rows 4 30 (by decide) (by norm_num) 6 (by decide) 0 0 0⟩

/-- C16: for every integer `Q ≥ 1` and every `L > 0`, with exact loop arithmetic, every
emitted vertex occurs in the emitted sequence as many times as it has coordinates of
absolute value `L/2`, which is once, twice or three times; each of the eight corners
`(±L/2, ±L/2, ±L/2)` occurs three times; and the `6 * (Q+1)²` emitted vertices comprise
exactly `6 * Q² + 2` distinct ones. -/
theorem vertex_multiplicity (Q : ℤ) (L : ℚ) (hQ : 1 ≤ Q) (hL : 0 < L) (fuel : ℕ)
    (hfuel : Q.toNat + 2 ≤ fuel) (i0 j0 k0 : ℚ) :
    ∃ t, mainBody id Q L fuel ⟨i0, j0, k0, []⟩ = some t ∧
      (∀ v ∈ vertices t.out,
        (vertices t.out).count v = absCount L v ∧ 1 ≤ absCount L v ∧ absCount L v ≤ 3) ∧
      (∀ x y z : ℚ, |x| = L / 2 → |y| = L / 2 → |z| = L / 2 →
        (vertices t.out).count (x, y, z) = 3) ∧
      ((vertices t.out).length : ℤ) = 6 * (Q + 1) ^ 2 ∧
      ((vertices t.out).dedup.length : ℤ) = 6 * Q ^ 2 + 2 := by
  obtain ⟨t, ht, -, -, -, -, hv⟩ := mainBody_id hQ hL hfuel i0 j0 k0
  refine ⟨t, ht, ?_, ?_, ?_, ?_⟩ <;> rw [hv]
  · intro v hmem
    obtain ⟨a, b, c, ha, hb, hc, hbd, rfl⟩ := ref_coords_grid hQ v hmem
    have hpos := List.count_pos_iff.mpr hmem
    rw [count_refVertices hQ hL ha hb hc] at hpos
    rw [absCount_eq_planeCount hL, count_refVertices hQ hL ha hb hc]
    refine ⟨rfl, hpos, ?_⟩
    rw [planeCount_asc hQ hL]
    split_ifs <;> simp
  · intro x y z hx hy hz
    obtain ⟨a, ha, ha', rfl⟩ := abs_plane_grid hQ hL hx
    obtain ⟨b, hb, hb', rfl⟩ := abs_plane_grid hQ hL hy
    obtain ⟨c, hc, hc', rfl⟩ := abs_plane_grid hQ hL hz
    rw [count_refVertices hQ hL ha hb hc, planeCount_asc hQ hL]
    simp [ha', hb', hc']
  · rw [length_refVertices]; push_cast; rw [toNat_cast_int hQ]
  · rw [← List.card_toFinset, card_refVertices hQ hL]; push_cast; rw [toNat_cast_int hQ]

theorem vertex_multiplicity_witness :
    (1 : ℤ) ≤ 4 ∧ (0 : ℚ) < 30 ∧ (4 : ℤ).toNat + 2 ≤ 6 ∧
      ∃ t, mainBody id 4 30 6 ⟨0, 0, 0, []⟩ = some t ∧
        (∀ v ∈ vertices t.out, (vertices t.out).count v = absCount 30 v) ∧
        (vertices t.out).count ((15, -15, 15) : Vertex) = 3 ∧
        (vertices t.out).length = 150 ∧ (vertices t.out).dedup.length = 98 := by
  obtain ⟨t, ht, h1, h2, h3, h4⟩ :=
    vertex_multiplicity 4 30 (by decide) (by norm_num) 6 (by decide) 0 0 0
  refine ⟨by decide, by norm_num, by decide, t, ht, fun v hv => (h1 v hv).1,
    h2 15 (-15) 15 (by norm_num) (by norm_num [abs_of_pos]) (by norm_num), ?_, ?_⟩
  · have : ((vertices t.out).length : ℤ) = 150 := by rw [h3]; norm_num
    exact_mod_cast this
  · have : ((vertices t.out).dedup.length : ℤ) = 98 := by rw [h4]; norm_num
    exact_mod_cast this

/-- C17: for the hard-coded `Q = 4`, `L = 30.0`, under any rounding to binary32 and with
fuel for six tests per loop.  Every multiple of `7.5` of absolute value at most `22.5` is
a binary32 value; `L/2`, `-(L/2)` and `L/Q` are such multiples, and so are the values of
`i`, `j`, `k` after each of the six faces (which include the values one step past the
bound, `±22.5`) and every coordinate emitted.  A run depends on the rounding operator
only through its values on these multiples and on the constants `30` and `4`, so the
run in binary32 is the run in exact arithmetic, and the vertices emitted are the full
reference sequence, no row or column skipped or duplicated. -/
theorem float_loops_are_exact (rnd : ℚ → ℚ) (hr : RoundsToBinary32 rnd) (fuel : ℕ)
    (hfuel : 6 ≤ fuel) (i0 j0 k0 : ℚ) :
    (∀ x, OnLattice x → IsBinary32 x) ∧
    (OnLattice (30 / 2) ∧ OnLattice (-(30 / 2)) ∧ OnLattice (30 / 4)) ∧
    (∀ r : ℚ → ℚ, (∀ x, OnLattice x → r x = x) → r 30 = 30 → r 4 = 4 →
      main r fuel i0 j0 k0 = main id fuel i0 j0 k0) ∧
    main rnd fuel i0 j0 k0 = main id fuel i0 j0 k0 ∧
    ∃ t1 t2 t3 t4 t5 t6,
      face1 rnd 4 (rnd 30) fuel (fprintf ⟨i0, j0, k0, []⟩ "\t     %d\n" [Arg.int 4]) = some t1 ∧
      face2 rnd 4 (rnd 30) fuel t1 = some t2 ∧ face3 rnd 4 (rnd 30) fuel t2 = some t3 ∧
      face4 rnd 4 (rnd 30) fuel t3 = some t4 ∧ face5 rnd 4 (rnd 30) fuel t4 = some t5 ∧
      face6 rnd 4 (rnd 30) fuel t5 = some t6 ∧
      main rnd fuel i0 j0 k0 = some t6 ∧
      (∀ t ∈ [t1, t2, t3, t4, t5, t6], OnLattice t.i ∧ OnLattice t.j ∧ OnLattice t.k) ∧
      (t1.i = -(45 / 2) ∧ t1.j = 45 / 2) ∧
      (∀ v ∈ vertices t6.out, OnLattice v.1 ∧ OnLattice v.2.1 ∧ OnLattice v.2.2) ∧
      vertices t6.out = refVertices 4 30 := by
  obtain ⟨h, h30, h4⟩ := lattice_exact_of_binary32 hr
  obtain ⟨t1, t2, t3, t4, t5, t6, f1, f2, f3, f4, f5, f6, hm, hl, ht⟩ :=
    main_trace h h30 h4 hfuel i0 j0 k0
  have hv : vertices t6.out = refVertices 4 30 := by rw [ht]; exact vertices_header_cons _ _
  have hE := exactOn_of_lattice h h4
  obtain ⟨u1, g1, a1, b1, -⟩ := @face1_spec rnd 4 30 hE (by decide) (by norm_num) fuel
    (by simpa using hfuel) (fprintf ⟨i0, j0, k0, []⟩ "\t     %d\n" [Arg.int 4])
  have h5 : (4 : ℤ).toNat + 1 = 5 := rfl
  rw [h5] at a1 b1
  have hu1 : u1 = t1 := by
    rw [h30] at f1; rw [g1] at f1; exact Option.some.inj f1
  subst hu1
  refine ⟨isBinary32_of_onLattice, plane_onLattice,
    fun r hr' h30' h4' => main_eq_exact hr' h30' h4' hfuel i0 j0 k0,
    main_eq_exact h h30 h4 hfuel i0 j0 k0,
    u1, t2, t3, t4, t5, t6, f1, f2, f3, f4, f5, f6, hm, hl, ?_, ?_, hv⟩
  · constructor
    · rw [a1]; norm_num [desc, nthValue]
    · rw [b1]; norm_num [asc, nthValue]
  · intro v hmem
    exact ref_onLattice v (hv ▸ hmem)

theorem float_loops_are_exact_witness :
    RoundsToBinary32 id ∧ 6 ≤ 6 ∧
      (∀ x, OnLattice x → IsBinary32 x) ∧
      (∀ r : ℚ → ℚ, (∀ x, OnLattice x → r x = x) → r 30 = 30 → r 4 = 4 →
        main r 6 0 0 0 = main id 6 0 0 0) ∧
      ∃ t, main id 6 0 0 0 = some t ∧
        (∀ v ∈ vertices t.out, OnLattice v.1 ∧ OnLattice v.2.1 ∧ OnLattice v.2.2) ∧
        vertices t.out = refVertices 4 30 := by
  obtain ⟨h1, -, h2, -, _, _, _, _, _, t, -, -, -, -, -, -, hm, -, -, hl, hv⟩ :=
    float_loops_are_exact id roundsToBinary32_id 6 (le_refl 6) 0 0 0
  exact ⟨roundsToBinary32_id, le_refl 6, h1, h2, t, hm, hl, hv⟩

end CubeICQ
